import Mathlib

/-!
Verification development for the QuantEcon action-translation repository.

The document model: a text is modelled as its list of lines (splitting a
string on newline characters and re-joining is the identity, so line-level
equality is byte-level equality of the text).

The repository's core modules `parser.ts`, `diff-detector.ts`,
`file-processor.ts` and `heading-map.ts` are not present in the source
tree (only their callers and tests are), so those operations are modelled
from the specification, as marked in the doc comments.  The orchestration
module `sync-orchestrator.ts` and the PR creator `pr-creator.ts` are
present and are embedded from their source.
-/

namespace ActionTranslation

/-- JS String.prototype.startsWith, on the character lists. -/
def jsStartsWith (s p : String) : Bool := s.data.take p.data.length == p.data

/-- JS String.prototype.endsWith, on the character lists. -/
def jsEndsWith (s p : String) : Bool :=
  s.data.drop (s.data.length - p.data.length) == p.data

/-- Modelled from the spec: parser region state.  Heading-like lines are
inert inside fenced code regions (delimited by matching three-backtick or
three-tilde markers) and math regions (delimited by matching dollar-dollar
markers); `parser.ts` is missing from the source tree. -/
inductive Region where
  | outside : Region
  | fence : String → Region
  | math : Region
deriving DecidableEq, Repr

/-- Modelled from the spec: a line opening a fenced code region, and which
marker delimits it. -/
def fenceMarker (l : String) : Option String :=
  if jsStartsWith l "```" then some "```"
  else if jsStartsWith l "~~~" then some "~~~"
  else none

/-- Modelled from the spec: a line opening or closing a math region. -/
def isMathDelim (l : String) : Bool := jsStartsWith l "$$"

/-- Modelled from the spec: region transition of the parser, one line at a
time.  A fence closes only on its matching marker; a math region closes
only on a dollar-dollar line. -/
def stepRegion (r : Region) (l : String) : Region :=
  match r with
  | .outside =>
    match fenceMarker l with
    | some m => .fence m
    | none => if isMathDelim l then .math else .outside
  | .fence m => if fenceMarker l = some m then .outside else .fence m
  | .math => if isMathDelim l then .outside else .math

/-- Number of leading hash characters of a line. -/
def leadingHashes : List Char → Nat
  | [] => 0
  | c :: cs => if c = '#' then leadingHashes cs + 1 else 0

/-- Modelled from the spec: a heading line opens with 2 to 6 hash
characters followed by a space; returns the level. -/
def headingLevel (l : String) : Option Nat :=
  let k := leadingHashes l.data
  if 2 ≤ k ∧ k ≤ 6 ∧ (l.data.drop k).head? = some ' ' then some k else none

/-- A line creates a section boundary exactly when it is a heading line
and the parser is outside any fence or math region. -/
def isBoundary (r : Region) (l : String) : Bool :=
  decide (r = .outside) && (headingLevel l).isSome

/-- A heading block produced by the first parsing pass: the raw heading
line, its level, and the body lines up to the next boundary. -/
structure HB where
  heading : String
  level : Nat
  body : List String
deriving DecidableEq, Repr

/-- Modelled from the spec: first parsing pass.  Splits the input lines at
section boundaries, returning the body lines preceding the first boundary
together with the list of heading blocks. -/
def bodyAndBlocks (r : Region) : List String → List String × List HB
  | [] => ([], [])
  | l :: ls =>
    if isBoundary r l then
      let rest := bodyAndBlocks (stepRegion r l) ls
      ([], ⟨l, (headingLevel l).getD 2, rest.1⟩ :: rest.2)
    else
      let rest := bodyAndBlocks (stepRegion r l) ls
      (l :: rest.1, rest.2)

/-- A document section: optional raw heading line (`none` for the implicit
headless section), level, derived id, own content lines (strictly
excluding descendant text), and the ordered subsections. -/
inductive Sec where
  | mk (heading : Option String) (level : Nat) (id : String)
       (content : List String) (subs : List Sec)
deriving Repr

def Sec.heading : Sec → Option String
  | .mk h _ _ _ _ => h

def Sec.level : Sec → Nat
  | .mk _ v _ _ _ => v

def Sec.id : Sec → String
  | .mk _ _ i _ _ => i

def Sec.content : Sec → List String
  | .mk _ _ _ c _ => c

def Sec.subs : Sec → List Sec
  | .mk _ _ _ _ s => s

/-- One step of the nesting pass: the already-built sibling forest of the
blocks following b is split; the maximal leading run of sections of level
strictly greater than b's becomes b's subsections. -/
def nestIns (b : HB) (f : List Sec) : List Sec :=
  Sec.mk (some b.heading) b.level "" b.body
      (f.takeWhile (fun s => b.level < s.level))
    :: f.dropWhile (fun s => b.level < s.level)

/-- Modelled from the spec: nesting pass.  Each heading becomes a child of
the nearest preceding still-open heading of strictly lower level. -/
def nest (bs : List HB) : List Sec := bs.foldr nestIns []

/-- Modelled from the spec: slug characters.  Lower-cases, replaces each
whitespace run with a single hyphen, strips punctuation.  The flag records
whether the previous character belonged to a whitespace run. -/
def slugChars (inRun : Bool) : List Char → List Char
  | [] => []
  | c :: cs =>
    if c.isWhitespace then
      (if inRun then [] else ['-']) ++ slugChars true cs
    else if c.isAlphanum then c.toLower :: slugChars false cs
    else slugChars false cs

/-- The heading text of a raw heading line: the line with its leading
hashes and the following space removed. -/
def headingTextOf (l : String) : String :=
  ⟨(l.data.drop (leadingHashes l.data)).dropWhile (· = ' ')⟩

/-- Modelled from the spec: id slug of a heading text. -/
def slug (s : String) : String := ⟨slugChars false s.data⟩

/-- Modelled from the spec: on collision with a sibling id, append the
first numeric suffix (-2, -3, ...) that restores uniqueness. -/
def fresh (base : String) (used : List String) : String :=
  if used.contains base then
    match ((List.range (used.length + 1)).map
        (fun n => base ++ "-" ++ toString (n + 2))).find?
        (fun s => !used.contains s) with
    | some s => s
    | none => base
  else base

/-- Modelled from the spec: assign ids level by level, deduplicating
against the ids already used among the preceding siblings. -/
def assignIds (used : List String) : List Sec → List Sec
  | [] => []
  | .mk hd lvl _ c subs :: rest =>
    let base := slug (headingTextOf (hd.getD ""))
    let i := fresh base used
    .mk hd lvl i c (assignIds [] subs) :: assignIds (i :: used) rest
termination_by ss => sizeOf ss
decreasing_by
  · simp only [Sec.mk.sizeOf_spec, List.cons.sizeOf_spec]; omega
  · simp only [Sec.mk.sizeOf_spec, List.cons.sizeOf_spec]; omega

/-- Modelled from the spec: `parse(text) -> Section[]`.  Splits the input
on heading lines outside fence and math regions, nests headings by level,
and derives sibling-unique ids.  Input with no boundary at all yields one
implicit headless top-level section holding the entire text; text before
the first heading likewise becomes an implicit leading section. -/
def parseSections (ls : List String) : List Sec :=
  let p := bodyAndBlocks .outside ls
  let preSecs : List Sec :=
    if p.2.isEmpty ∨ p.1 ≠ [] then [.mk none 1 "" p.1 []] else []
  assignIds [] (preSecs ++ nest p.2)

/-- Serialization of a section forest: each section renders as its raw
heading line (when present), then its own content, then the rendering of
its subsections, in order. -/
def serializeSecs : List Sec → List String
  | [] => []
  | .mk hd _ _ c subs :: rest =>
    hd.toList ++ c ++ serializeSecs subs ++ serializeSecs rest
termination_by ss => sizeOf ss
decreasing_by
  · simp only [Sec.mk.sizeOf_spec, List.cons.sizeOf_spec]; omega
  · simp only [Sec.mk.sizeOf_spec, List.cons.sizeOf_spec]; omega

/-- Serialization of a single section. -/
def serializeSec (s : Sec) : List String := serializeSecs [s]

/-- The lines of a list of heading blocks, in order. -/
def joinHB : List HB → List String
  | [] => []
  | b :: rest => b.heading :: b.body ++ joinHB rest

/-- The region the parser is in just before each line, scanning from
state r. -/
def regionsFrom (r : Region) : List String → List Region
  | [] => []
  | l :: ls => r :: regionsFrom (stepRegion r l) ls

/-- The lines of the input that create section boundaries when scanning
from state r: heading lines lying outside fence and math regions. -/
def boundaryLinesFrom (r : Region) (ls : List String) : List String :=
  ((ls.zip (regionsFrom r ls)).filter (fun p => isBoundary p.2 p.1)).map (·.1)

/-- The boundary lines of a document. -/
def boundaryLines (ls : List String) : List String :=
  boundaryLinesFrom .outside ls

/-- All raw heading lines of a section forest, in document order. -/
def headingsOfSecs : List Sec → List String
  | [] => []
  | .mk hd _ _ _ subs :: rest =>
    hd.toList ++ headingsOfSecs subs ++ headingsOfSecs rest
termination_by ss => sizeOf ss
decreasing_by
  · simp only [Sec.mk.sizeOf_spec, List.cons.sizeOf_spec]; omega
  · simp only [Sec.mk.sizeOf_spec, List.cons.sizeOf_spec]; omega

theorem bodyAndBlocks_join (r : Region) (ls : List String) :
    (bodyAndBlocks r ls).1 ++ joinHB (bodyAndBlocks r ls).2 = ls := by
  induction ls generalizing r with
  | nil => simp [bodyAndBlocks, joinHB]
  | cons l ls ih =>
    by_cases h : isBoundary r l = true
    · simp [bodyAndBlocks, h, joinHB, ih]
    · simp [bodyAndBlocks, h, joinHB, ih]

theorem serializeSecs_append (a b : List Sec) :
    serializeSecs (a ++ b) = serializeSecs a ++ serializeSecs b := by
  induction a with
  | nil => simp [serializeSecs]
  | cons s rest ih =>
    cases s with
    | mk hd lvl i c subs => simp [serializeSecs, ih]

theorem serializeSecs_nest (bs : List HB) :
    serializeSecs (nest bs) = joinHB bs := by
  induction bs with
  | nil => simp [nest, serializeSecs, joinHB]
  | cons b rest ih =>
    show serializeSecs (nestIns b (nest rest)) = joinHB (b :: rest)
    calc serializeSecs (nestIns b (nest rest))
        = b.heading :: (b.body
            ++ (serializeSecs ((nest rest).takeWhile (fun s => b.level < s.level))
              ++ serializeSecs ((nest rest).dropWhile (fun s => b.level < s.level)))) := by
          simp [nestIns, serializeSecs]
      _ = b.heading :: (b.body ++ serializeSecs (nest rest)) := by
          rw [← serializeSecs_append, List.takeWhile_append_dropWhile]
      _ = joinHB (b :: rest) := by rw [ih]; rfl

theorem serializeSecs_assignIds (used : List String) (ss : List Sec) :
    serializeSecs (assignIds used ss) = serializeSecs ss := by
  induction used, ss using assignIds.induct with
  | case1 used => simp [assignIds]
  | case2 used hd lvl i c subs rest b j ihs ihr =>
    rw [assignIds]
    simp only [serializeSecs]
    rw [ihs, ihr]

/-- Round trip: serializing the parse of a document reproduces the
document line for line. -/
theorem serializeSecs_parseSections (ls : List String) :
    serializeSecs (parseSections ls) = ls := by
  unfold parseSections
  rw [serializeSecs_assignIds, serializeSecs_append, serializeSecs_nest]
  by_cases h : (bodyAndBlocks .outside ls).2.isEmpty = true
      ∨ (bodyAndBlocks .outside ls).1 ≠ []
  · rw [if_pos h]
    simp only [serializeSecs, Option.toList, List.append_nil, List.nil_append]
    exact bodyAndBlocks_join .outside ls
  · rw [if_neg h]
    push_neg at h
    have := bodyAndBlocks_join .outside ls
    rw [h.2] at this
    simpa [serializeSecs] using this

theorem boundaryLinesFrom_cons (r : Region) (l : String) (ls : List String) :
    boundaryLinesFrom r (l :: ls) =
      (if isBoundary r l then [l] else [])
        ++ boundaryLinesFrom (stepRegion r l) ls := by
  by_cases h : isBoundary r l <;>
    simp [boundaryLinesFrom, regionsFrom, List.filter, h, List.zip]

theorem blocks_headings (r : Region) (ls : List String) :
    (bodyAndBlocks r ls).2.map HB.heading = boundaryLinesFrom r ls := by
  induction ls generalizing r with
  | nil => simp [bodyAndBlocks, boundaryLinesFrom, regionsFrom]
  | cons l ls ih =>
    rw [boundaryLinesFrom_cons]
    by_cases h : isBoundary r l <;> simp [bodyAndBlocks, h, ih]

theorem headingsOfSecs_append (a b : List Sec) :
    headingsOfSecs (a ++ b) = headingsOfSecs a ++ headingsOfSecs b := by
  induction a with
  | nil => simp [headingsOfSecs]
  | cons s rest ih =>
    cases s with
    | mk hd lvl i c subs => simp [headingsOfSecs, ih]

theorem headingsOfSecs_nest (bs : List HB) :
    headingsOfSecs (nest bs) = bs.map HB.heading := by
  induction bs with
  | nil => simp [nest, headingsOfSecs]
  | cons b rest ih =>
    show headingsOfSecs (nestIns b (nest rest)) = HB.heading b :: rest.map HB.heading
    calc headingsOfSecs (nestIns b (nest rest))
        = b.heading
            :: (headingsOfSecs ((nest rest).takeWhile (fun s => b.level < s.level))
              ++ headingsOfSecs ((nest rest).dropWhile (fun s => b.level < s.level))) := by
          simp [nestIns, headingsOfSecs]
      _ = b.heading :: headingsOfSecs (nest rest) := by
          rw [← headingsOfSecs_append, List.takeWhile_append_dropWhile]
      _ = HB.heading b :: rest.map HB.heading := by rw [ih]

theorem headingsOfSecs_assignIds (used : List String) (ss : List Sec) :
    headingsOfSecs (assignIds used ss) = headingsOfSecs ss := by
  induction used, ss using assignIds.induct with
  | case1 used => simp [assignIds]
  | case2 used hd lvl i c subs rest b j ihs ihr =>
    rw [assignIds]
    simp only [headingsOfSecs]
    rw [ihs, ihr]

/-- The heading lines of the parsed section tree are exactly the boundary
lines of the input: heading-shaped lines outside fence and math regions. -/
theorem headingsOf_parseSections (ls : List String) :
    headingsOfSecs (parseSections ls) = boundaryLines ls := by
  unfold parseSections boundaryLines
  rw [headingsOfSecs_assignIds, headingsOfSecs_append, headingsOfSecs_nest,
    ← blocks_headings .outside ls]
  by_cases h : (bodyAndBlocks .outside ls).2.isEmpty = true
      ∨ (bodyAndBlocks .outside ls).1 ≠ []
  · rw [if_pos h]
    simp [headingsOfSecs]
  · rw [if_neg h]
    simp [headingsOfSecs]

/-- A document with no boundary line parses to exactly one implicit
headless top-level section holding the entire text. -/
theorem parseSections_no_boundary (ls : List String)
    (h : boundaryLines ls = []) : parseSections ls = [Sec.mk none 1 "" ls []] := by
  have h2 : (bodyAndBlocks .outside ls).2 = [] := by
    have hb := blocks_headings .outside ls
    rw [show boundaryLinesFrom Region.outside ls = boundaryLines ls from rfl, h] at hb
    exact List.map_eq_nil_iff.mp hb
  have h1 : (bodyAndBlocks .outside ls).1 = ls := by
    have := bodyAndBlocks_join .outside ls
    rw [h2] at this
    simpa [joinHB] using this
  have hfresh : fresh (slug (headingTextOf "")) [] = "" := by decide
  simp only [parseSections]
  rw [h1, h2, if_pos (Or.inl (show (([] : List HB).isEmpty) = true from rfl))]
  simp [nest, assignIds, hfresh]

/-- Modelled from the spec: the heading-map, an ordered mapping from
source-id to target-language heading text (`heading-map.ts` is missing
from the source tree). -/
structure HeadingMap where
  entries : List (String × String)
deriving DecidableEq, Repr

/-- The recorded target heading text for an id, when present. -/
def HeadingMap.findEntry (m : HeadingMap) (i : String) : Option String :=
  (m.entries.find? (fun e => e.1 == i)).map (·.2)

/-- The ids recorded in the map, in order. -/
def HeadingMap.ids (m : HeadingMap) : List String := m.entries.map (·.1)

/-- Modelled from the spec: set or overwrite the entry for an id. -/
def HeadingMap.setEntry (m : HeadingMap) (i t : String) : HeadingMap :=
  if m.entries.any (fun e => e.1 == i) then
    ⟨m.entries.map (fun e => if e.1 == i then (i, t) else e)⟩
  else ⟨m.entries ++ [(i, t)]⟩

/-- Modelled from the spec: delete the entry for an id. -/
def HeadingMap.removeEntry (m : HeadingMap) (i : String) : HeadingMap :=
  ⟨m.entries.filter (fun e => !(e.1 == i))⟩

/-- Modelled from the spec: per source-id change classification.  Matched
ids carry the recursively compared child records; an added id carries the
whole new subtree (its content must come wholly from fresh translation); a
removed id carries the whole old subtree to drop. -/
inductive CR where
  | unchanged (id : String) (children : List CR)
  | changed (id : String) (children : List CR)
  | added (id : String) (newSec : Sec)
  | removed (id : String) (oldSec : Sec)
deriving Repr

/-- Whether a record is an unchanged record. -/
def CR.isUnchanged : CR → Bool
  | .unchanged _ _ => true
  | _ => false

/-- Remove the first section with the given id from a pool of sections,
returning it (if found) and the remaining pool in original order.  This
realises the spec's tie-break: duplicate ids match by relative document
order. -/
def extractFirst : List Sec → String → Option Sec × List Sec
  | [], _ => (none, [])
  | s :: rest, i =>
    if s.id == i then (some s, rest)
    else
      let r := extractFirst rest i
      (r.1, s :: r.2)

theorem extractFirst_mem : ∀ (pool : List Sec) (i : String) (o : Sec),
    (extractFirst pool i).1 = some o → o ∈ pool := by
  intro pool i o h
  induction pool with
  | nil => simp [extractFirst] at h
  | cons s rest ih =>
    by_cases hs : (s.id == i) = true
    · simp [extractFirst, hs] at h
      simp [h]
    · simp [extractFirst, hs] at h
      exact List.mem_cons_of_mem _ (ih h)

theorem extractFirst_sizeOf_le : ∀ (pool : List Sec) (i : String),
    sizeOf (extractFirst pool i).2 ≤ sizeOf pool := by
  intro pool i
  induction pool with
  | nil => simp [extractFirst]
  | cons s rest ih =>
    by_cases hs : (s.id == i) = true
    · simp only [extractFirst, hs, if_true, List.cons.sizeOf_spec]
      omega
    · simp only [extractFirst, hs, if_false, Bool.false_eq_true, List.cons.sizeOf_spec]
      omega

theorem sizeOf_subs_lt (s : Sec) : sizeOf s.subs < sizeOf s := by
  cases s with
  | mk hd lvl i c subs =>
    simp only [Sec.subs, Sec.mk.sizeOf_spec]
    omega

/-- Modelled from the spec: recursive change detection.  News are walked
in document order; each new section consumes the first remaining old
section with the same id (matched: recursively compared, unchanged only
when heading and content are byte-identical and the whole subtree is
unchanged), or becomes an added record.  Returns the records in new-tree
order together with the unmatched old sections. -/
def detectChangesGo : List Sec → List Sec → List CR × List Sec
  | pool, [] => ([], pool)
  | pool, n :: rest =>
    match h : (extractFirst pool n.id).1 with
    | some o =>
      let p := detectChangesGo o.subs n.subs
      let children := p.1 ++ p.2.map (fun o2 => CR.removed o2.id o2)
      let r := if o.heading = n.heading ∧ o.content = n.content
            ∧ children.all CR.isUnchanged
        then CR.unchanged n.id children else CR.changed n.id children
      let r2 := detectChangesGo (extractFirst pool n.id).2 rest
      (r :: r2.1, r2.2)
    | none =>
      let r2 := detectChangesGo pool rest
      (CR.added n.id n :: r2.1, r2.2)
termination_by pool news => sizeOf pool + sizeOf news
decreasing_by
  · have h1 : sizeOf o < sizeOf pool :=
      List.sizeOf_lt_of_mem (extractFirst_mem pool n.id o h)
    have h2 : sizeOf o.subs < sizeOf o := sizeOf_subs_lt o
    have h3 : sizeOf n.subs < sizeOf n := sizeOf_subs_lt n
    simp only [List.cons.sizeOf_spec]
    omega
  · have h1 := extractFirst_sizeOf_le pool n.id
    simp only [List.cons.sizeOf_spec]
    omega
  · simp only [List.cons.sizeOf_spec]
    omega

/-- Modelled from the spec: `detectChanges(oldTree, newTree)`.  Ids present
in both trees are matched by relative order and recursively compared, ids
only in the new tree are added, ids only in the old tree are removed. -/
def detectSectionChanges (olds news : List Sec) : List CR :=
  let p := detectChangesGo olds news
  p.1 ++ p.2.map (fun o => CR.removed o.id o)

/-- The fully-unchanged record forest of a tree. -/
def unchangedRecords : List Sec → List CR
  | [] => []
  | s :: rest => CR.unchanged s.id (unchangedRecords s.subs) :: unchangedRecords rest
termination_by ss => sizeOf ss
decreasing_by
  · have := sizeOf_subs_lt s
    simp only [List.cons.sizeOf_spec]
    omega
  · simp only [List.cons.sizeOf_spec]
    omega

theorem unchangedRecords_all (ss : List Sec) :
    (unchangedRecords ss).all CR.isUnchanged = true := by
  induction ss with
  | nil => simp [unchangedRecords]
  | cons s rest ih =>
    rw [unchangedRecords]
    simp [CR.isUnchanged, ih]

theorem extractFirst_self (s : Sec) (rest : List Sec) :
    extractFirst (s :: rest) s.id = (some s, rest) := by
  simp [extractFirst]

/-- Diffing a tree against itself matches every section with itself and
classifies everything unchanged, leaving no unmatched old sections. -/
theorem detectChangesGo_self : ∀ (ss : List Sec),
    detectChangesGo ss ss = (unchangedRecords ss, [])
  | [] => by simp [detectChangesGo, unchangedRecords]
  | s :: rest => by
    have ih1 := detectChangesGo_self s.subs
    have ih2 := detectChangesGo_self rest
    have hall := unchangedRecords_all s.subs
    rw [List.all_eq_true] at hall
    rw [detectChangesGo, unchangedRecords]
    split
    next o h =>
      rw [extractFirst_self] at h
      simp only [Option.some.injEq] at h
      subst h
      simp [extractFirst_self, ih1, ih2]
      exact hall
    next h =>
      rw [extractFirst_self] at h
      simp at h
termination_by ss => sizeOf ss
decreasing_by
  · have := sizeOf_subs_lt s
    simp only [List.cons.sizeOf_spec]
    omega
  · simp only [List.cons.sizeOf_spec]
    omega

theorem detectSectionChanges_self (ss : List Sec) :
    detectSectionChanges ss ss = unchangedRecords ss := by
  simp [detectSectionChanges, detectChangesGo_self]

/-- The caller-supplied translated-text lookup: freshly translated lines
for a changed or added id, or absent. -/
def Lookup := String → Option (List String)

/-- Reconstruction failure for one document. -/
structure FileError where
  message : String
deriving DecidableEq, Repr

/-- Modelled from the spec: resolve the target-language section for an id
during reconstruction — first via the heading-map's recorded target
heading text matched against the target tree by id, falling back to
position-based matching within the target tree. -/
def resolveTarget (hm : HeadingMap) (i : String) (tsecs : List Sec)
    (pos : Nat) : Option Sec :=
  match hm.findEntry i with
  | some th =>
    match tsecs.find? (fun s => s.id == slug th) with
    | some s => some s
    | none => tsecs[pos]?
  | none => tsecs[pos]?

/-- Modelled from the spec: the reconstruction walk, one tree level at a
time in new-source order.  Unchanged ids copy the resolved target section
verbatim (no recursion); changed ids take the freshly translated own text
and recurse into the child records against the resolved target section's
subsections; added ids take the freshly translated whole subtree; removed
ids are omitted.  A changed or added id with no translated text available
fails the whole walk.  The second component is the trace of ids passed to
the lookup, in query order. -/
def walkGo (lookup : Lookup) (hm : HeadingMap) :
    List CR → List Sec → Nat → Except FileError (List String) × List String
  | [], _, _ => (.ok [], [])
  | .unchanged i _ :: rest, tsecs, pos =>
    let out := match resolveTarget hm i tsecs pos with
      | some s => serializeSec s
      | none => []
    let rr := walkGo lookup hm rest tsecs (pos + 1)
    (rr.1.map (fun tl => out ++ tl), rr.2)
  | .changed i children :: rest, tsecs, pos =>
    match lookup i with
    | none => (.error ⟨"No translation for changed section: " ++ i⟩, [i])
    | some own =>
      let tsubs := match resolveTarget hm i tsecs pos with
        | some s => s.subs
        | none => []
      let rc := walkGo lookup hm children tsubs 0
      match rc.1 with
      | .error e => (.error e, i :: rc.2)
      | .ok childOut =>
        let rr := walkGo lookup hm rest tsecs (pos + 1)
        (rr.1.map (fun tl => own ++ childOut ++ tl), i :: (rc.2 ++ rr.2))
  | .added i _ :: rest, tsecs, pos =>
    match lookup i with
    | none => (.error ⟨"No translation for added section: " ++ i⟩, [i])
    | some own =>
      let rr := walkGo lookup hm rest tsecs (pos + 1)
      (rr.1.map (fun tl => own ++ tl), i :: rr.2)
  | .removed _ _ :: rest, tsecs, pos =>
    walkGo lookup hm rest tsecs pos
termination_by records _ _ => sizeOf records
decreasing_by
  · simp only [CR.unchanged.sizeOf_spec, List.cons.sizeOf_spec]; omega
  · simp only [CR.changed.sizeOf_spec, List.cons.sizeOf_spec]; omega
  · simp only [CR.changed.sizeOf_spec, List.cons.sizeOf_spec]; omega
  · simp only [CR.added.sizeOf_spec, List.cons.sizeOf_spec]; omega
  · simp only [CR.removed.sizeOf_spec, List.cons.sizeOf_spec]; omega

/-- All ids reachable in a section forest, in document order. -/
def treeIds : List Sec → List String
  | [] => []
  | s :: rest => s.id :: (treeIds s.subs ++ treeIds rest)
termination_by ss => sizeOf ss
decreasing_by
  · have := sizeOf_subs_lt s
    simp only [List.cons.sizeOf_spec]
    omega
  · simp only [List.cons.sizeOf_spec]
    omega

/-- The ids whose heading-map entries are set during an update: every
changed id, and every id of an added subtree. -/
def changedAddedIds : List CR → List String
  | [] => []
  | .unchanged _ cs :: rest => changedAddedIds cs ++ changedAddedIds rest
  | .changed i cs :: rest => i :: (changedAddedIds cs ++ changedAddedIds rest)
  | .added _ nsec :: rest => treeIds [nsec] ++ changedAddedIds rest
  | .removed _ _ :: rest => changedAddedIds rest
termination_by rs => sizeOf rs
decreasing_by
  · simp only [CR.unchanged.sizeOf_spec, List.cons.sizeOf_spec]; omega
  · simp only [CR.unchanged.sizeOf_spec, List.cons.sizeOf_spec]; omega
  · simp only [CR.changed.sizeOf_spec, List.cons.sizeOf_spec]; omega
  · simp only [CR.changed.sizeOf_spec, List.cons.sizeOf_spec]; omega
  · simp only [CR.added.sizeOf_spec, List.cons.sizeOf_spec]; omega
  · simp only [CR.removed.sizeOf_spec, List.cons.sizeOf_spec]; omega

/-- The ids whose heading-map entries are deleted during an update: every
id of a removed subtree. -/
def removedIds : List CR → List String
  | [] => []
  | .unchanged _ cs :: rest => removedIds cs ++ removedIds rest
  | .changed _ cs :: rest => removedIds cs ++ removedIds rest
  | .added _ _ :: rest => removedIds rest
  | .removed _ osec :: rest => treeIds [osec] ++ removedIds rest
termination_by rs => sizeOf rs
decreasing_by
  · simp only [CR.unchanged.sizeOf_spec, List.cons.sizeOf_spec]; omega
  · simp only [CR.unchanged.sizeOf_spec, List.cons.sizeOf_spec]; omega
  · simp only [CR.changed.sizeOf_spec, List.cons.sizeOf_spec]; omega
  · simp only [CR.changed.sizeOf_spec, List.cons.sizeOf_spec]; omega
  · simp only [CR.added.sizeOf_spec, List.cons.sizeOf_spec]; omega
  · simp only [CR.removed.sizeOf_spec, List.cons.sizeOf_spec]; omega

/-- Modelled from the spec: the heading-map update performed at the end of
reconstruction.  Every removed id is deleted, then every changed or added
id resolved during reconstruction has its entry set or overwritten. -/
def updateHeadingMap (m : HeadingMap) (records : List CR)
    (resolved : String → String) : HeadingMap :=
  let afterRemove := (removedIds records).foldl (fun acc i => acc.removeEntry i) m
  (changedAddedIds records).foldl (fun acc i => acc.setEntry i (resolved i)) afterRemove

/-- The target heading text resolved for a freshly translated id: the
heading text of the first line of its translated text. -/
def resolvedHeading (lookup : Lookup) (i : String) : String :=
  match lookup i with
  | some (l :: _) => headingTextOf l
  | _ => ""

/-- Modelled from the spec: `reconstruct(targetText, changeTree, lookup,
headingMap)`.  Parses the target text, walks the change tree in new-source
order, and returns the new document together with the updated heading-map,
or a FileError when a changed or added id has no translated text. -/
def reconstruct (target : List String) (records : List CR) (lookup : Lookup)
    (hm : HeadingMap) : Except FileError (List String × HeadingMap) :=
  match (walkGo lookup hm records (parseSections target) 0).1 with
  | .error e => .error e
  | .ok lines => .ok (lines, updateHeadingMap hm records (resolvedHeading lookup))

theorem serializeSecs_cons (s : Sec) (rest : List Sec) :
    serializeSecs (s :: rest) = serializeSec s ++ serializeSecs rest := by
  cases s with
  | mk hd lvl i c subs => simp [serializeSecs, serializeSec]

theorem resolveTarget_empty (i : String) (tsecs : List Sec) (pos : Nat) :
    resolveTarget ⟨[]⟩ i tsecs pos = tsecs[pos]? := by
  simp [resolveTarget, HeadingMap.findEntry, List.find?]

/-- Walking an all-unchanged record list against an aligned target level
with an empty heading map copies the target sections verbatim, in order,
querying the lookup never. -/
theorem walkGo_unchanged (lookup : Lookup) (srcs : List Sec) (tsecs : List Sec) :
    ∀ pos : Nat, pos + srcs.length = tsecs.length →
    walkGo lookup ⟨[]⟩ (unchangedRecords srcs) tsecs pos
      = (.ok (serializeSecs (tsecs.drop pos)), []) := by
  induction srcs with
  | nil =>
    intro pos h
    rw [unchangedRecords]
    simp only [List.length_nil, Nat.add_zero] at h
    simp [walkGo, List.drop_of_length_le (Nat.le_of_eq h.symm), serializeSecs]
  | cons s rest ih =>
    intro pos h
    have hlt : pos < tsecs.length := by
      simp only [List.length_cons] at h
      omega
    have hdrop : tsecs.drop pos = tsecs[pos] :: tsecs.drop (pos + 1) :=
      List.drop_eq_getElem_cons hlt
    rw [unchangedRecords]
    rw [walkGo]
    rw [ih (pos + 1) (by simp only [List.length_cons] at h; omega)]
    simp only [resolveTarget_empty, List.getElem?_eq_getElem hlt, Except.map]
    rw [hdrop, serializeSecs_cons]

theorem changedAddedIds_unchangedRecords : ∀ (ss : List Sec),
    changedAddedIds (unchangedRecords ss) = []
  | [] => by simp [unchangedRecords, changedAddedIds]
  | s :: rest => by
    have ih1 := changedAddedIds_unchangedRecords s.subs
    have ih2 := changedAddedIds_unchangedRecords rest
    rw [unchangedRecords, changedAddedIds]
    simp [ih1, ih2]
termination_by ss => sizeOf ss
decreasing_by
  · have := sizeOf_subs_lt s
    simp only [List.cons.sizeOf_spec]
    omega
  · simp only [List.cons.sizeOf_spec]
    omega

theorem removedIds_unchangedRecords : ∀ (ss : List Sec),
    removedIds (unchangedRecords ss) = []
  | [] => by simp [unchangedRecords, removedIds]
  | s :: rest => by
    have ih1 := removedIds_unchangedRecords s.subs
    have ih2 := removedIds_unchangedRecords rest
    rw [unchangedRecords, removedIds]
    simp [ih1, ih2]
termination_by ss => sizeOf ss
decreasing_by
  · have := sizeOf_subs_lt s
    simp only [List.cons.sizeOf_spec]
    omega
  · simp only [List.cons.sizeOf_spec]
    omega

theorem updateHeadingMap_unchangedRecords (m : HeadingMap) (ss : List Sec)
    (resolved : String → String) :
    updateHeadingMap m (unchangedRecords ss) resolved = m := by
  simp [updateHeadingMap, changedAddedIds_unchangedRecords,
    removedIds_unchangedRecords]

theorem unchangedRecords_length (ss : List Sec) :
    (unchangedRecords ss).length = ss.length := by
  induction ss with
  | nil => simp [unchangedRecords]
  | cons s rest ih =>
    rw [unchangedRecords]
    simp [ih]

/-- Reconstructing against the self-diff of a source returns the target
text byte for byte with the heading map untouched, whenever the empty
heading map makes resolution positional and the two documents have equally
many top-level sections. -/
theorem reconstruct_self_diff (S T : List String) (lookup : Lookup)
    (h : (parseSections S).length = (parseSections T).length) :
    reconstruct T (detectSectionChanges (parseSections S) (parseSections S))
      lookup ⟨[]⟩ = .ok (T, ⟨[]⟩) := by
  rw [detectSectionChanges_self, reconstruct]
  rw [walkGo_unchanged lookup (parseSections S) (parseSections T) 0
    (by simpa using h)]
  simp [serializeSecs_parseSections, updateHeadingMap_unchangedRecords]

/-- Number of sections in a forest whose raw heading line is h. -/
def headedCount (h : String) : List Sec → Nat
  | [] => 0
  | s :: rest =>
    (if s.heading = some h then 1 else 0) + headedCount h s.subs + headedCount h rest
termination_by ss => sizeOf ss
decreasing_by
  · have := sizeOf_subs_lt s
    simp only [List.cons.sizeOf_spec]
    omega
  · simp only [List.cons.sizeOf_spec]
    omega

/-- Number of content lines in a forest equal to h. -/
def contentCount (h : String) : List Sec → Nat
  | [] => 0
  | s :: rest => s.content.count h + contentCount h s.subs + contentCount h rest
termination_by ss => sizeOf ss
decreasing_by
  · have := sizeOf_subs_lt s
    simp only [List.cons.sizeOf_spec]
    omega
  · simp only [List.cons.sizeOf_spec]
    omega

/-- Serialization renders each section's heading exactly once: the number
of occurrences of a line in the rendered output is the number of sections
bearing it as heading plus the number of content lines equal to it.
Subsection text is never derived a second time from the parent. -/
theorem count_serializeSecs (h : String) : ∀ (ss : List Sec),
    (serializeSecs ss).count h = headedCount h ss + contentCount h ss
  | [] => by simp [serializeSecs, headedCount, contentCount]
  | .mk hd lvl i c subs :: rest => by
    have ih1 := count_serializeSecs h subs
    have ih2 := count_serializeSecs h rest
    rw [serializeSecs]
    rw [headedCount, contentCount]
    simp only [List.count_append, ih1, ih2, Sec.heading, Sec.subs, Sec.content]
    have hopt : (Option.toList hd).count h = if hd = some h then 1 else 0 := by
      cases hd with
      | none => simp [Option.toList]
      | some x =>
        by_cases hx : x = h
        · simp [Option.toList, hx, List.count_cons]
        · simp [Option.toList, List.count_cons, hx]
    rw [hopt]
    omega
termination_by ss => sizeOf ss
decreasing_by
  · simp only [Sec.mk.sizeOf_spec, List.cons.sizeOf_spec]
    omega
  · simp only [Sec.mk.sizeOf_spec, List.cons.sizeOf_spec]
    omega

/-- Whether some changed or added record reachable by the reconstruction
walk has no translated text in the lookup. -/
def hasMissing (lookup : Lookup) : List CR → Bool
  | [] => false
  | .unchanged _ _ :: rest => hasMissing lookup rest
  | .changed i cs :: rest =>
    (lookup i).isNone || hasMissing lookup cs || hasMissing lookup rest
  | .added i _ :: rest => (lookup i).isNone || hasMissing lookup rest
  | .removed _ _ :: rest => hasMissing lookup rest
termination_by rs => sizeOf rs
decreasing_by
  · simp only [CR.unchanged.sizeOf_spec, List.cons.sizeOf_spec]; omega
  · simp only [CR.changed.sizeOf_spec, List.cons.sizeOf_spec]; omega
  · simp only [CR.changed.sizeOf_spec, List.cons.sizeOf_spec]; omega
  · simp only [CR.added.sizeOf_spec, List.cons.sizeOf_spec]; omega
  · simp only [CR.removed.sizeOf_spec, List.cons.sizeOf_spec]; omega

/-- The ids of the changed and added records in the order the
reconstruction walk visits them, one entry per record. -/
def visitIds : List CR → List String
  | [] => []
  | .unchanged _ _ :: rest => visitIds rest
  | .changed i cs :: rest => i :: (visitIds cs ++ visitIds rest)
  | .added i _ :: rest => i :: visitIds rest
  | .removed _ _ :: rest => visitIds rest
termination_by rs => sizeOf rs
decreasing_by
  · simp only [CR.unchanged.sizeOf_spec, List.cons.sizeOf_spec]; omega
  · simp only [CR.changed.sizeOf_spec, List.cons.sizeOf_spec]; omega
  · simp only [CR.changed.sizeOf_spec, List.cons.sizeOf_spec]; omega
  · simp only [CR.added.sizeOf_spec, List.cons.sizeOf_spec]; omega
  · simp only [CR.removed.sizeOf_spec, List.cons.sizeOf_spec]; omega

/-- A missing translation for a reachable changed or added id fails the
whole walk. -/
theorem walkGo_error_of_hasMissing (lookup : Lookup) (hm : HeadingMap) :
    ∀ (records : List CR) (tsecs : List Sec) (pos : Nat),
    hasMissing lookup records = true →
    ∃ e, (walkGo lookup hm records tsecs pos).1 = .error e
  | [], _, _ => by simp [hasMissing]
  | .unchanged i cs :: rest, tsecs, pos => by
    intro hmiss
    rw [hasMissing] at hmiss
    rw [walkGo]
    obtain ⟨e, he⟩ :=
      walkGo_error_of_hasMissing lookup hm rest tsecs (pos + 1) hmiss
    exact ⟨e, by simp [he, Except.map]⟩
  | .changed i cs :: rest, tsecs, pos => by
    intro hmiss
    rw [hasMissing] at hmiss
    rw [walkGo]
    cases hl : lookup i with
    | none => exact ⟨_, rfl⟩
    | some own =>
      simp only [hl, Option.isNone_some, Bool.false_or, Bool.or_eq_true] at hmiss
      cases hmiss with
      | inl hcs =>
        obtain ⟨e, he⟩ := walkGo_error_of_hasMissing lookup hm cs
          (match resolveTarget hm i tsecs pos with
            | some s => s.subs
            | none => []) 0 hcs
        refine ⟨e, ?_⟩
        simp only [he]
      | inr hrest =>
        cases hc : (walkGo lookup hm cs
            (match resolveTarget hm i tsecs pos with
              | some s => s.subs
              | none => []) 0).1 with
        | error e => exact ⟨e, by simp [hc]⟩
        | ok childOut =>
          obtain ⟨e, he⟩ :=
            walkGo_error_of_hasMissing lookup hm rest tsecs (pos + 1) hrest
          exact ⟨e, by simp [hc, he, Except.map]⟩
  | .added i nsec :: rest, tsecs, pos => by
    intro hmiss
    rw [hasMissing] at hmiss
    rw [walkGo]
    cases hl : lookup i with
    | none => exact ⟨_, rfl⟩
    | some own =>
      simp only [hl, Option.isNone_some, Bool.false_or] at hmiss
      obtain ⟨e, he⟩ :=
        walkGo_error_of_hasMissing lookup hm rest tsecs (pos + 1) hmiss
      exact ⟨e, by simp [he, Except.map]⟩
  | .removed i osec :: rest, tsecs, pos => by
    intro hmiss
    rw [hasMissing] at hmiss
    rw [walkGo]
    exact walkGo_error_of_hasMissing lookup hm rest tsecs pos hmiss
termination_by records _ _ => sizeOf records
decreasing_by
  · simp only [CR.unchanged.sizeOf_spec, List.cons.sizeOf_spec]; omega
  · simp only [CR.changed.sizeOf_spec, List.cons.sizeOf_spec]; omega
  · simp only [CR.changed.sizeOf_spec, List.cons.sizeOf_spec]; omega
  · simp only [CR.added.sizeOf_spec, List.cons.sizeOf_spec]; omega
  · simp only [CR.removed.sizeOf_spec, List.cons.sizeOf_spec]; omega

theorem prefix_cons_of (a : String) (l₁ l₂ : List String) (h : l₁ <+: l₂) :
    a :: l₁ <+: a :: l₂ := by
  obtain ⟨t, ht⟩ := h
  exact ⟨t, by simp [← ht]⟩

theorem prefix_append_of (l m₁ m₂ : List String) (h : m₁ <+: m₂) :
    l ++ m₁ <+: l ++ m₂ := by
  obtain ⟨t, ht⟩ := h
  exact ⟨t, by simp [← ht]⟩

/-- The walk queries the lookup in a single pass: the trace of queried ids
is a prefix of the one-query-per-record visit sequence, and a successful
walk queries exactly that sequence. -/
theorem walkGo_trace (lookup : Lookup) (hm : HeadingMap) :
    ∀ (records : List CR) (tsecs : List Sec) (pos : Nat),
    ((walkGo lookup hm records tsecs pos).2 <+: visitIds records)
    ∧ (∀ out, (walkGo lookup hm records tsecs pos).1 = .ok out →
        (walkGo lookup hm records tsecs pos).2 = visitIds records)
  | [], _, _ => by simp [walkGo, visitIds]
  | .unchanged i cs :: rest, tsecs, pos => by
    have ih := walkGo_trace lookup hm rest tsecs (pos + 1)
    rw [walkGo, visitIds]
    constructor
    · exact ih.1
    · intro out hout
      simp only at hout
      cases hr : (walkGo lookup hm rest tsecs (pos + 1)).1 with
      | error e => rw [hr] at hout; simp [Except.map] at hout
      | ok o2 => exact ih.2 o2 hr
  | .changed i cs :: rest, tsecs, pos => by
    rw [walkGo, visitIds]
    cases hl : lookup i with
    | none =>
      constructor
      · exact ⟨_, rfl⟩
      · intro out hout
        simp at hout
    | some own =>
      have ihc := walkGo_trace lookup hm cs
        (match resolveTarget hm i tsecs pos with
          | some s => s.subs
          | none => []) 0
      have ihr := walkGo_trace lookup hm rest tsecs (pos + 1)
      cases hc : (walkGo lookup hm cs
          (match resolveTarget hm i tsecs pos with
            | some s => s.subs
            | none => []) 0).1 with
      | error e =>
        simp only [hc]
        constructor
        · refine prefix_cons_of _ _ _ ?_
          have h1 : (walkGo lookup hm cs
              (match resolveTarget hm i tsecs pos with
                | some s => s.subs
                | none => []) 0).2 <+: visitIds cs := ihc.1
          exact h1.trans (List.prefix_append _ _)
        · intro out hout
          simp at hout
      | ok childOut =>
        simp only [hc]
        have hceq : (walkGo lookup hm cs
            (match resolveTarget hm i tsecs pos with
              | some s => s.subs
              | none => []) 0).2 = visitIds cs := ihc.2 childOut hc
        constructor
        · rw [hceq]
          exact prefix_cons_of _ _ _ (prefix_append_of _ _ _ ihr.1)
        · intro out hout
          cases hr : (walkGo lookup hm rest tsecs (pos + 1)).1 with
          | error e => rw [hr] at hout; simp [Except.map] at hout
          | ok o2 =>
            simp [hc, hceq, ihr.2 o2 hr]
  | .added i nsec :: rest, tsecs, pos => by
    rw [walkGo, visitIds]
    cases hl : lookup i with
    | none =>
      constructor
      · exact ⟨_, rfl⟩
      · intro out hout
        simp at hout
    | some own =>
      have ihr := walkGo_trace lookup hm rest tsecs (pos + 1)
      constructor
      · exact prefix_cons_of _ _ _ ihr.1
      · intro out hout
        simp only at hout
        cases hr : (walkGo lookup hm rest tsecs (pos + 1)).1 with
        | error e => rw [hr] at hout; simp [Except.map] at hout
        | ok o2 => simp [ihr.2 o2 hr]
  | .removed i osec :: rest, tsecs, pos => by
    rw [walkGo, visitIds]
    exact walkGo_trace lookup hm rest tsecs pos
termination_by records _ _ => sizeOf records
decreasing_by
  · simp only [CR.unchanged.sizeOf_spec, List.cons.sizeOf_spec]; omega
  · simp only [CR.changed.sizeOf_spec, List.cons.sizeOf_spec]; omega
  · simp only [CR.changed.sizeOf_spec, List.cons.sizeOf_spec]; omega
  · simp only [CR.added.sizeOf_spec, List.cons.sizeOf_spec]; omega
  · simp only [CR.removed.sizeOf_spec, List.cons.sizeOf_spec]; omega

/-- Ids of all matched (unchanged or changed) records, at every level. -/
def matchedIds : List CR → List String
  | [] => []
  | .unchanged i cs :: rest => i :: (matchedIds cs ++ matchedIds rest)
  | .changed i cs :: rest => i :: (matchedIds cs ++ matchedIds rest)
  | .added _ _ :: rest => matchedIds rest
  | .removed _ _ :: rest => matchedIds rest
termination_by rs => sizeOf rs
decreasing_by
  all_goals simp only [CR.unchanged.sizeOf_spec, CR.changed.sizeOf_spec,
    CR.added.sizeOf_spec, CR.removed.sizeOf_spec, List.cons.sizeOf_spec]
  all_goals omega

/-- Ids of all added subtrees, at every level. -/
def addedIdsCR : List CR → List String
  | [] => []
  | .unchanged _ cs :: rest => addedIdsCR cs ++ addedIdsCR rest
  | .changed _ cs :: rest => addedIdsCR cs ++ addedIdsCR rest
  | .added _ nsec :: rest => treeIds [nsec] ++ addedIdsCR rest
  | .removed _ _ :: rest => addedIdsCR rest
termination_by rs => sizeOf rs
decreasing_by
  all_goals simp only [CR.unchanged.sizeOf_spec, CR.changed.sizeOf_spec,
    CR.added.sizeOf_spec, CR.removed.sizeOf_spec, List.cons.sizeOf_spec]
  all_goals omega

theorem matchedIds_append : ∀ (a b : List CR),
    matchedIds (a ++ b) = matchedIds a ++ matchedIds b
  | [], b => by simp [matchedIds]
  | r :: rest, b => by
    have ih := matchedIds_append rest b
    cases r <;> simp [matchedIds, ih]

theorem removedIds_append : ∀ (a b : List CR),
    removedIds (a ++ b) = removedIds a ++ removedIds b
  | [], b => by simp [removedIds]
  | r :: rest, b => by
    have ih := removedIds_append rest b
    cases r <;> simp [removedIds, ih]

theorem addedIdsCR_append : ∀ (a b : List CR),
    addedIdsCR (a ++ b) = addedIdsCR a ++ addedIdsCR b
  | [], b => by simp [addedIdsCR]
  | r :: rest, b => by
    have ih := addedIdsCR_append rest b
    cases r <;> simp [addedIdsCR, ih]

theorem changedAddedIds_append : ∀ (a b : List CR),
    changedAddedIds (a ++ b) = changedAddedIds a ++ changedAddedIds b
  | [], b => by simp [changedAddedIds]
  | r :: rest, b => by
    have ih := changedAddedIds_append rest b
    cases r <;> simp [changedAddedIds, ih]

theorem removedIds_map_removed : ∀ (ss : List Sec),
    removedIds (ss.map (fun o => CR.removed o.id o)) = treeIds ss
  | [] => by simp [removedIds, treeIds]
  | s :: rest => by
    have ih := removedIds_map_removed rest
    simp [removedIds, ih, treeIds]

theorem matchedIds_map_removed (ss : List Sec) :
    matchedIds (ss.map (fun o => CR.removed o.id o)) = [] := by
  induction ss with
  | nil => simp [matchedIds]
  | cons s rest ih => simp [matchedIds, ih]

theorem addedIdsCR_map_removed (ss : List Sec) :
    addedIdsCR (ss.map (fun o => CR.removed o.id o)) = [] := by
  induction ss with
  | nil => simp [addedIdsCR]
  | cons s rest ih => simp [addedIdsCR, ih]

theorem changedAddedIds_map_removed (ss : List Sec) :
    changedAddedIds (ss.map (fun o => CR.removed o.id o)) = [] := by
  induction ss with
  | nil => simp [changedAddedIds]
  | cons s rest ih => simp [changedAddedIds, ih]

theorem matchedIds_cons_matched (c : Prop) [Decidable c] (i : String)
    (cs rest : List CR) :
    matchedIds ((if c then CR.unchanged i cs else CR.changed i cs) :: rest)
      = i :: (matchedIds cs ++ matchedIds rest) := by
  by_cases hc : c <;> simp [hc, matchedIds]

theorem removedIds_cons_matched (c : Prop) [Decidable c] (i : String)
    (cs rest : List CR) :
    removedIds ((if c then CR.unchanged i cs else CR.changed i cs) :: rest)
      = removedIds cs ++ removedIds rest := by
  by_cases hc : c <;> simp [hc, removedIds]

theorem addedIdsCR_cons_matched (c : Prop) [Decidable c] (i : String)
    (cs rest : List CR) :
    addedIdsCR ((if c then CR.unchanged i cs else CR.changed i cs) :: rest)
      = addedIdsCR cs ++ addedIdsCR rest := by
  by_cases hc : c <;> simp [hc, addedIdsCR]

theorem extractFirst_none (pool : List Sec) (i : String)
    (h : (extractFirst pool i).1 = none) : (extractFirst pool i).2 = pool := by
  induction pool with
  | nil => simp [extractFirst]
  | cons s rest ih =>
    by_cases hs : (s.id == i) = true
    · simp [extractFirst, hs] at h
    · simp only [extractFirst, hs] at h ⊢
      simp at h ⊢
      exact ih h

theorem extractFirst_id (pool : List Sec) (i : String) (o : Sec)
    (h : (extractFirst pool i).1 = some o) : o.id = i := by
  induction pool with
  | nil => simp [extractFirst] at h
  | cons s rest ih =>
    by_cases hs : (s.id == i) = true
    · simp [extractFirst, hs] at h
      rw [← h]
      exact eq_of_beq hs
    · simp [extractFirst, hs] at h
      exact ih h

theorem extractFirst_count (pool : List Sec) (i : String) (o : Sec)
    (h : (extractFirst pool i).1 = some o) (x : String) :
    (treeIds pool).count x
      = (treeIds [o]).count x + (treeIds (extractFirst pool i).2).count x := by
  induction pool with
  | nil => simp [extractFirst] at h
  | cons s rest ih =>
    by_cases hs : (s.id == i) = true
    · simp only [extractFirst, hs, if_true] at h ⊢
      simp only [Option.some.injEq] at h
      subst h
      simp only [treeIds, List.count_cons, List.count_append, List.count_nil]
      omega
    · simp only [extractFirst, hs, Bool.false_eq_true, if_false] at h ⊢
      have ihr := ih h
      simp only [treeIds, List.count_cons, List.count_append, List.count_nil]
        at ihr ⊢
      omega

theorem dc_count_old_aux : ∀ (k : Nat), ∀ (pool news : List Sec),
    sizeOf pool + sizeOf news ≤ k → ∀ (x : String),
    (treeIds pool).count x
      = (matchedIds (detectChangesGo pool news).1).count x
        + (removedIds (detectChangesGo pool news).1).count x
        + (treeIds (detectChangesGo pool news).2).count x := by
  intro k
  induction k with
  | zero =>
    intro pool news hk
    cases pool <;> cases news <;> simp [List.cons.sizeOf_spec] at hk
  | succ k ih =>
    intro pool news hk x
    cases news with
    | nil =>
      rw [detectChangesGo]
      simp [matchedIds, removedIds]
    | cons n rest =>
      rw [detectChangesGo]
      split
      next o h =>
        have hmem : sizeOf o < sizeOf pool :=
          List.sizeOf_lt_of_mem (extractFirst_mem pool n.id o h)
        have hos := sizeOf_subs_lt o
        have hns := sizeOf_subs_lt n
        have hcons : sizeOf (n :: rest) = 1 + sizeOf n + sizeOf rest := by
          simp [List.cons.sizeOf_spec]
        have hle := extractFirst_sizeOf_le pool n.id
        have hid := extractFirst_id pool n.id o h
        have hcnt := extractFirst_count pool n.id o h x
        have ih1 := ih o.subs n.subs (by omega) x
        have ih2 := ih (extractFirst pool n.id).2 rest (by omega) x
        simp only [matchedIds_cons_matched, removedIds_cons_matched,
          matchedIds_append, removedIds_append, matchedIds_map_removed,
          removedIds_map_removed, List.count_cons, List.count_append,
          List.count_nil, List.append_nil]
        simp only [treeIds, List.count_cons, List.count_append, List.count_nil]
          at hcnt
        rw [hid] at hcnt
        omega
      next h =>
        have hcons : sizeOf (n :: rest) = 1 + sizeOf n + sizeOf rest := by
          simp [List.cons.sizeOf_spec]
        have hnone := extractFirst_none pool n.id h
        have ih2 := ih pool rest (by omega) x
        simp only [matchedIds, removedIds, hnone]
        omega

/-- Occurrence-matched diffing partitions the old tree's ids exactly into
matched ids, removed ids, and ids of the unmatched leftover pool. -/
theorem dc_count_old (pool news : List Sec) (x : String) :
    (treeIds pool).count x
      = (matchedIds (detectChangesGo pool news).1).count x
        + (removedIds (detectChangesGo pool news).1).count x
        + (treeIds (detectChangesGo pool news).2).count x :=
  dc_count_old_aux (sizeOf pool + sizeOf news) pool news (Nat.le_refl _) x

theorem dc_count_new_aux : ∀ (k : Nat), ∀ (pool news : List Sec),
    sizeOf pool + sizeOf news ≤ k → ∀ (x : String),
    (treeIds news).count x
      = (matchedIds (detectChangesGo pool news).1).count x
        + (addedIdsCR (detectChangesGo pool news).1).count x := by
  intro k
  induction k with
  | zero =>
    intro pool news hk
    cases pool <;> cases news <;> simp [List.cons.sizeOf_spec] at hk
  | succ k ih =>
    intro pool news hk x
    cases news with
    | nil =>
      rw [detectChangesGo]
      simp [matchedIds, addedIdsCR, treeIds]
    | cons n rest =>
      rw [detectChangesGo]
      split
      next o h =>
        have hmem : sizeOf o < sizeOf pool :=
          List.sizeOf_lt_of_mem (extractFirst_mem pool n.id o h)
        have hos := sizeOf_subs_lt o
        have hns := sizeOf_subs_lt n
        have hcons : sizeOf (n :: rest) = 1 + sizeOf n + sizeOf rest := by
          simp [List.cons.sizeOf_spec]
        have hle := extractFirst_sizeOf_le pool n.id
        have ih1 := ih o.subs n.subs (by omega) x
        have ih2 := ih (extractFirst pool n.id).2 rest (by omega) x
        simp only [matchedIds_cons_matched, addedIdsCR_cons_matched,
          matchedIds_append, addedIdsCR_append, matchedIds_map_removed,
          addedIdsCR_map_removed, List.count_cons, List.count_append,
          List.count_nil, List.append_nil]
        simp only [treeIds, List.count_cons, List.count_append, List.count_nil]
        omega
      next h =>
        have hcons : sizeOf (n :: rest) = 1 + sizeOf n + sizeOf rest := by
          simp [List.cons.sizeOf_spec]
        have ih2 := ih pool rest (by omega) x
        simp only [matchedIds, addedIdsCR, List.count_append]
        simp only [treeIds, List.count_cons, List.count_append, List.count_nil]
          at ih2 ⊢
        omega

/-- Occurrence-matched diffing partitions the new tree's ids exactly into
matched ids and added ids. -/
theorem dc_count_new (pool news : List Sec) (x : String) :
    (treeIds news).count x
      = (matchedIds (detectChangesGo pool news).1).count x
        + (addedIdsCR (detectChangesGo pool news).1).count x :=
  dc_count_new_aux (sizeOf pool + sizeOf news) pool news (Nat.le_refl _) x

theorem dsc_count_old (olds news : List Sec) (x : String) :
    (treeIds olds).count x
      = (matchedIds (detectSectionChanges olds news)).count x
        + (removedIds (detectSectionChanges olds news)).count x := by
  have h := dc_count_old olds news x
  unfold detectSectionChanges
  simp only [matchedIds_append, removedIds_append, matchedIds_map_removed,
    removedIds_map_removed, List.count_append, List.count_nil]
  omega

theorem dsc_count_new (olds news : List Sec) (x : String) :
    (treeIds news).count x
      = (matchedIds (detectSectionChanges olds news)).count x
        + (addedIdsCR (detectSectionChanges olds news)).count x := by
  have h := dc_count_new olds news x
  unfold detectSectionChanges
  simp only [matchedIds_append, addedIdsCR_append, matchedIds_map_removed,
    addedIdsCR_map_removed, List.count_append, List.count_nil]
  omega

theorem mem_changedAddedIds : ∀ (rs : List CR) (i : String),
    i ∈ changedAddedIds rs → i ∈ matchedIds rs ∨ i ∈ addedIdsCR rs
  | [], i => by simp [changedAddedIds]
  | .unchanged j cs :: rest, i => by
    intro h
    rw [changedAddedIds] at h
    rw [matchedIds, addedIdsCR]
    rcases List.mem_append.mp h with h1 | h2
    · rcases mem_changedAddedIds cs i h1 with hm | ha
      · exact Or.inl (by simp [hm])
      · exact Or.inr (by simp [ha])
    · rcases mem_changedAddedIds rest i h2 with hm | ha
      · exact Or.inl (by simp [hm])
      · exact Or.inr (by simp [ha])
  | .changed j cs :: rest, i => by
    intro h
    rw [changedAddedIds] at h
    rw [matchedIds, addedIdsCR]
    rcases List.mem_cons.mp h with h0 | h12
    · exact Or.inl (by simp [h0])
    rcases List.mem_append.mp h12 with h1 | h2
    · rcases mem_changedAddedIds cs i h1 with hm | ha
      · exact Or.inl (by simp [hm])
      · exact Or.inr (by simp [ha])
    · rcases mem_changedAddedIds rest i h2 with hm | ha
      · exact Or.inl (by simp [hm])
      · exact Or.inr (by simp [ha])
  | .added j nsec :: rest, i => by
    intro h
    rw [changedAddedIds] at h
    rw [matchedIds, addedIdsCR]
    rcases List.mem_append.mp h with h1 | h2
    · exact Or.inr (by simp [h1])
    · rcases mem_changedAddedIds rest i h2 with hm | ha
      · exact Or.inl hm
      · exact Or.inr (by simp [ha])
  | .removed j osec :: rest, i => by
    intro h
    rw [changedAddedIds] at h
    rw [matchedIds, addedIdsCR]
    exact mem_changedAddedIds rest i h
termination_by rs _ => sizeOf rs
decreasing_by
  all_goals simp only [CR.unchanged.sizeOf_spec, CR.changed.sizeOf_spec,
    CR.added.sizeOf_spec, CR.removed.sizeOf_spec, List.cons.sizeOf_spec]
  all_goals omega

theorem mem_addedIds_changedAdded : ∀ (rs : List CR) (i : String),
    i ∈ addedIdsCR rs → i ∈ changedAddedIds rs
  | [], i => by simp [addedIdsCR]
  | .unchanged j cs :: rest, i => by
    intro h
    rw [addedIdsCR] at h
    rw [changedAddedIds]
    rcases List.mem_append.mp h with h1 | h2
    · exact List.mem_append.mpr (Or.inl (mem_addedIds_changedAdded cs i h1))
    · exact List.mem_append.mpr (Or.inr (mem_addedIds_changedAdded rest i h2))
  | .changed j cs :: rest, i => by
    intro h
    rw [addedIdsCR] at h
    rw [changedAddedIds]
    rcases List.mem_append.mp h with h1 | h2
    · simp [mem_addedIds_changedAdded cs i h1]
    · simp [mem_addedIds_changedAdded rest i h2]
  | .added j nsec :: rest, i => by
    intro h
    rw [addedIdsCR] at h
    rw [changedAddedIds]
    rcases List.mem_append.mp h with h1 | h2
    · exact List.mem_append.mpr (Or.inl h1)
    · exact List.mem_append.mpr (Or.inr (mem_addedIds_changedAdded rest i h2))
  | .removed j osec :: rest, i => by
    intro h
    rw [addedIdsCR] at h
    rw [changedAddedIds]
    exact mem_addedIds_changedAdded rest i h
termination_by rs _ => sizeOf rs
decreasing_by
  all_goals simp only [CR.unchanged.sizeOf_spec, CR.changed.sizeOf_spec,
    CR.added.sizeOf_spec, CR.removed.sizeOf_spec, List.cons.sizeOf_spec]
  all_goals omega

theorem mem_ids_removeEntry (m : HeadingMap) (j i : String) :
    i ∈ (m.removeEntry j).ids ↔ i ∈ m.ids ∧ i ≠ j := by
  simp only [HeadingMap.removeEntry, HeadingMap.ids, List.mem_map,
    List.mem_filter]
  constructor
  · rintro ⟨e, ⟨he, hne⟩, rfl⟩
    refine ⟨⟨e, he, rfl⟩, ?_⟩
    simpa using hne
  · rintro ⟨⟨e, he, rfl⟩, hne⟩
    exact ⟨e, ⟨he, by simpa using hne⟩, rfl⟩

theorem ids_setEntry_of_present (m : HeadingMap) (j t : String)
    (h : m.entries.any (fun e => e.1 == j) = true) :
    (m.setEntry j t).ids = m.ids := by
  simp only [HeadingMap.setEntry, h, if_true, HeadingMap.ids]
  rw [List.map_map]
  apply List.map_congr_left
  intro e _
  by_cases he : (e.1 == j) = true
  · simp [he, (eq_of_beq he).symm]
  · have hne : e.1 ≠ j := by simpa using he
    simp [he, hne]

theorem mem_ids_setEntry (m : HeadingMap) (j t i : String) :
    i ∈ (m.setEntry j t).ids ↔ i ∈ m.ids ∨ i = j := by
  by_cases h : m.entries.any (fun e => e.1 == j) = true
  · rw [ids_setEntry_of_present m j t h]
    constructor
    · exact Or.inl
    · rintro (hi | rfl)
      · exact hi
      · simp only [List.any_eq_true] at h
        obtain ⟨e, he, heq⟩ := h
        exact List.mem_map.mpr ⟨e, he, eq_of_beq heq⟩
  · simp only [HeadingMap.setEntry, h, if_false, Bool.false_eq_true,
      HeadingMap.ids, List.map_append]
    simp

theorem mem_ids_foldRemove (rs : List String) : ∀ (m : HeadingMap) (i : String),
    i ∈ (rs.foldl (fun acc j => acc.removeEntry j) m).ids
      ↔ i ∈ m.ids ∧ i ∉ rs := by
  induction rs with
  | nil => simp
  | cons j rest ih =>
    intro m i
    simp only [List.foldl_cons]
    rw [ih (m.removeEntry j) i, mem_ids_removeEntry]
    simp only [List.mem_cons]
    constructor
    · rintro ⟨⟨him, hne⟩, hnr⟩
      exact ⟨him, by rintro (rfl | hr) <;> [exact hne rfl; exact hnr hr]⟩
    · rintro ⟨him, hn⟩
      exact ⟨⟨him, fun hrfl => hn (Or.inl hrfl)⟩, fun hr => hn (Or.inr hr)⟩

theorem mem_ids_foldSet (cs : List String) (resolved : String → String) :
    ∀ (m : HeadingMap) (i : String),
    i ∈ (cs.foldl (fun acc j => acc.setEntry j (resolved j)) m).ids
      ↔ i ∈ m.ids ∨ i ∈ cs := by
  induction cs with
  | nil => simp
  | cons j rest ih =>
    intro m i
    simp only [List.foldl_cons]
    rw [ih (m.setEntry j (resolved j)) i, mem_ids_setEntry]
    simp only [List.mem_cons]
    tauto

theorem nodup_ids_removeEntry (m : HeadingMap) (j : String)
    (h : m.ids.Nodup) : (m.removeEntry j).ids.Nodup := by
  have hsub : (m.removeEntry j).ids.Sublist m.ids := by
    simp only [HeadingMap.removeEntry, HeadingMap.ids]
    exact (List.filter_sublist _).map _
  exact h.sublist hsub

theorem nodup_ids_setEntry (m : HeadingMap) (j t : String)
    (h : m.ids.Nodup) : (m.setEntry j t).ids.Nodup := by
  by_cases hp : m.entries.any (fun e => e.1 == j) = true
  · rw [ids_setEntry_of_present m j t hp]
    exact h
  · simp only [HeadingMap.setEntry, hp, if_false, Bool.false_eq_true,
      HeadingMap.ids, List.map_append]
    have hnj : j ∉ m.ids := by
      intro hj
      apply hp
      simp only [HeadingMap.ids, List.mem_map] at hj
      obtain ⟨e, he, rfl⟩ := hj
      simp only [List.any_eq_true]
      exact ⟨e, he, by simp⟩
    simp only [List.nodup_append, List.map_cons, List.map_nil]
    refine ⟨h, List.nodup_singleton _, ?_⟩
    intro a ha hb
    simp only [List.mem_singleton] at hb
    subst hb
    exact hnj ha

theorem nodup_ids_foldRemove (rs : List String) : ∀ (m : HeadingMap),
    m.ids.Nodup → ((rs.foldl (fun acc j => acc.removeEntry j) m).ids).Nodup := by
  induction rs with
  | nil => intro m h; simpa using h
  | cons j rest ih =>
    intro m h
    simp only [List.foldl_cons]
    exact ih _ (nodup_ids_removeEntry m j h)

theorem nodup_ids_foldSet (cs : List String) (resolved : String → String) :
    ∀ (m : HeadingMap), m.ids.Nodup →
    ((cs.foldl (fun acc j => acc.setEntry j (resolved j)) m).ids).Nodup := by
  induction cs with
  | nil => intro m h; simpa using h
  | cons j rest ih =>
    intro m h
    simp only [List.foldl_cons]
    exact ih _ (nodup_ids_setEntry m j _ h)

/-- After updating the heading map along the diff of an old tree against a
new tree, the map's id set equals exactly the ids reachable in the new
tree, with one entry each — provided the incoming map covered exactly the
old tree's ids and ids are globally duplicate-free. -/
theorem updateHeadingMap_complete (old new : List Sec) (m : HeadingMap)
    (resolved : String → String)
    (hids : ∀ i, i ∈ m.ids ↔ i ∈ treeIds old)
    (hnodupOld : (treeIds old).Nodup) (hnodupM : m.ids.Nodup) :
    (∀ i, i ∈ (updateHeadingMap m (detectSectionChanges old new) resolved).ids
        ↔ i ∈ treeIds new)
    ∧ (updateHeadingMap m (detectSectionChanges old new) resolved).ids.Nodup := by
  constructor
  · intro i
    rw [updateHeadingMap]
    rw [mem_ids_foldSet, mem_ids_foldRemove]
    have hBo := dsc_count_old old new i
    have hBn := dsc_count_new old new i
    constructor
    · rintro (⟨him, hirem⟩ | hica)
      · have hold : i ∈ treeIds old := (hids i).mp him
        have h1 : 0 < (treeIds old).count i := List.count_pos_iff.mpr hold
        have h0 : (removedIds (detectSectionChanges old new)).count i = 0 :=
          List.count_eq_zero.mpr hirem
        have hmatched : 0 < (matchedIds (detectSectionChanges old new)).count i := by
          omega
        have : 0 < (treeIds new).count i := by omega
        exact List.count_pos_iff.mp this
      · rcases mem_changedAddedIds _ i hica with hm | ha
        · have h1 : 0 < (matchedIds (detectSectionChanges old new)).count i :=
            List.count_pos_iff.mpr hm
          have : 0 < (treeIds new).count i := by omega
          exact List.count_pos_iff.mp this
        · have h1 : 0 < (addedIdsCR (detectSectionChanges old new)).count i :=
            List.count_pos_iff.mpr ha
          have : 0 < (treeIds new).count i := by omega
          exact List.count_pos_iff.mp this
    · intro hin
      by_cases hca : i ∈ changedAddedIds (detectSectionChanges old new)
      · exact Or.inr hca
      · refine Or.inl ?_
        have hnew : 0 < (treeIds new).count i := List.count_pos_iff.mpr hin
        by_cases hadd : i ∈ addedIdsCR (detectSectionChanges old new)
        · exact absurd (mem_addedIds_changedAdded _ i hadd) hca
        · have hadd0 : (addedIdsCR (detectSectionChanges old new)).count i = 0 :=
            List.count_eq_zero.mpr hadd
          have hmatched : 0 < (matchedIds (detectSectionChanges old new)).count i := by
            omega
          have holdc : 0 < (treeIds old).count i := by omega
          have hold1 : (treeIds old).count i ≤ 1 :=
            List.nodup_iff_count_le_one.mp hnodupOld i
          have hrem0 : (removedIds (detectSectionChanges old new)).count i = 0 := by
            omega
          refine ⟨(hids i).mpr (List.count_pos_iff.mp holdc), ?_⟩
          intro hr
          have := List.count_pos_iff.mpr hr
          omega
  · rw [updateHeadingMap]
    exact nodup_ids_foldSet _ _ _ (nodup_ids_foldRemove _ _ hnodupM)

/-- A GitHub PR file entry as consumed by classifyChangedFiles. -/
structure PRFile where
  filename : String
  status : String
  previous_filename : Option String := none
deriving DecidableEq, Repr

/-- The five output categories of classifyChangedFiles. -/
structure ClassifiedFiles where
  changedMarkdownFiles : List PRFile
  renamedMarkdownFiles : List PRFile
  changedTocFiles : List PRFile
  removedMarkdownFiles : List PRFile
  removedTocFiles : List PRFile
deriving DecidableEq, Repr

/-- Embedded from sync-orchestrator.ts: classify GitHub PR files into sync
categories by docs-folder prefix, file suffix, and status. -/
def classifyChangedFiles (files : List PRFile) (docsFolder : String) :
    ClassifiedFiles :=
  { changedMarkdownFiles := files.filter (fun f =>
      jsStartsWith f.filename docsFolder && jsEndsWith f.filename ".md"
        && !(f.status == "removed") && !(f.status == "renamed")),
    renamedMarkdownFiles := files.filter (fun f =>
      jsStartsWith f.filename docsFolder && jsEndsWith f.filename ".md"
        && f.status == "renamed"),
    changedTocFiles := files.filter (fun f =>
      jsStartsWith f.filename docsFolder && jsEndsWith f.filename "_toc.yml"
        && !(f.status == "removed") && !(f.status == "renamed")),
    removedMarkdownFiles := files.filter (fun f =>
      jsStartsWith f.filename docsFolder && jsEndsWith f.filename ".md"
        && f.status == "removed"),
    removedTocFiles := files.filter (fun f =>
      jsStartsWith f.filename docsFolder && jsEndsWith f.filename "_toc.yml"
        && f.status == "removed") }

/-- A file suffix test cannot accept both ".md" and "_toc.yml". -/
theorem not_md_and_toc (s : String) :
    ¬(jsEndsWith s ".md" = true ∧ jsEndsWith s "_toc.yml" = true) := by
  rintro ⟨h1, h2⟩
  have e1 : s.data.drop (s.data.length - (".md".data).length) = ".md".data :=
    eq_of_beq h1
  have e2 : s.data.drop (s.data.length - ("_toc.yml".data).length)
      = "_toc.yml".data := eq_of_beq h2
  have hlen1 := congrArg List.length e1
  have hlen2 := congrArg List.length e2
  simp only [List.length_drop] at hlen1 hlen2
  have hmd : (".md".data).length = 3 := by decide
  have htoc : ("_toc.yml".data).length = 8 := by decide
  rw [hmd] at hlen1 e1
  rw [htoc] at hlen2 e2
  have hn : 8 ≤ s.data.length := by omega
  have hdd : List.drop 5 (s.data.drop (s.data.length - 8))
      = s.data.drop (s.data.length - 3) := by
    rw [List.drop_drop]
    congr 1
    omega
  rw [e2, e1] at hdd
  exact absurd hdd (by decide)

/-- The type tag of a file to sync. -/
inductive FileType where
  | markdown
  | toc
  | renamed
  | removed
deriving DecidableEq, Repr

/-- Embedded from sync-orchestrator.ts: a file to be processed, with
pre-fetched content.  Content strings are modelled as line lists; a
missing or empty (falsy) content is `none`. -/
structure FileToSync where
  filename : String
  type : FileType
  newContent : Option (List String) := none
  oldContent : Option (List String) := none
  targetContent : Option (List String) := none
  previousFilename : Option String := none
  existingFileSha : Option String := none
  oldFileSha : Option String := none
  isNewFile : Bool
deriving DecidableEq, Repr

/-- Embedded from types.ts usage: a translated file to commit. -/
structure TranslatedFile where
  path : String
  content : List String
  sha : Option String := none
deriving DecidableEq, Repr

/-- Embedded from sync-orchestrator.ts: the aggregate result of
processing a batch. -/
structure SyncProcessingResult where
  translatedFiles : List TranslatedFile
  filesToDelete : List (String × String)
  processedFiles : List String
  errors : List String
deriving DecidableEq, Repr

/-- Parse one reserved-block entry line of the form
two-spaces id colon text. -/
def parseMapEntry (l : String) : Option (String × String) :=
  if jsStartsWith l "  " then
    let cs := l.data.drop 2
    let idPart := cs.takeWhile (fun c => c ≠ ':')
    match cs.dropWhile (fun c => c ≠ ':') with
    | ':' :: r => some (⟨idPart⟩, ⟨r.dropWhile (· = ' ')⟩)
    | _ => none
  else none

/-- Modelled from the spec: `extract(targetText)` reads the reserved
heading-map block of the target document; an absent block yields the
empty map (`heading-map.ts` is missing from the source tree). -/
def extractHeadingMap (ls : List String) : HeadingMap :=
  match ls.dropWhile (fun l => l ≠ "heading-map:") with
  | _ :: rest =>
    ⟨(rest.takeWhile (fun l => (parseMapEntry l).isSome)).filterMap parseMapEntry⟩
  | [] => ⟨[]⟩

/-- Modelled from the spec: validation of reconstructed output — a
structural sanity check that fence and math regions are balanced
(`file-processor.ts` is missing from the source tree). -/
def validateMyST (ls : List String) : Bool :=
  decide (ls.foldl stepRegion Region.outside = Region.outside)

/-- Modelled from the spec: section-based update of an existing
translation — parse the old and new source, detect changes, reconstruct
the target with the caller-supplied lookup and the heading map read from
the target document.  Metadata re-injection is not modelled; no claim
depends on it. -/
def processSectionBased (lookup : Lookup) (oldC newC targetC : List String) :
    Except FileError (List String) :=
  (reconstruct targetC
    (detectSectionChanges (parseSections oldC) (parseSections newC))
    lookup (extractHeadingMap targetC)).map Prod.fst

/-- The per-file contribution a handler makes to the batch result. -/
structure Contribution where
  translatedFiles : List TranslatedFile := []
  filesToDelete : List (String × String) := []
  processedFiles : List String := []
deriving DecidableEq, Repr

/-- Embedded from sync-orchestrator.ts processMarkdownFile: new files get
a full translation (the collaborator function tf), existing files get a
section-based update; the translated content is validated, then recorded
at the file's path with the existing file sha.  Every failure throws
before anything is recorded. -/
def processMarkdownFile (tf : List String → Option (List String))
    (lookup : Lookup) (file : FileToSync) : Except String Contribution :=
  match file.newContent with
  | none => .error ("No content provided for " ++ file.filename)
  | some nc =>
    let translated : Except String (List String) :=
      if file.isNewFile then
        match tf nc with
        | some t => .ok t
        | none => .error ("Full translation failed for " ++ file.filename)
      else
        match processSectionBased lookup (file.oldContent.getD []) nc
            (file.targetContent.getD []) with
        | .ok t => .ok t
        | .error e => .error e.message
    match translated with
    | .error e => .error e
    | .ok t =>
      if validateMyST t then
        .ok { translatedFiles := [⟨file.filename, t, file.existingFileSha⟩],
              processedFiles := [file.filename] }
      else .error ("Validation failed for " ++ file.filename)

/-- Embedded from sync-orchestrator.ts processRenamedFile: an existing
translation is section-updated, otherwise the new content is fully
translated; the output is stored at the new path with no sha, and the old
path is marked for deletion exactly when both the old target sha and the
previous filename are present. -/
def processRenamedFile (tf : List String → Option (List String))
    (lookup : Lookup) (file : FileToSync) : Except String Contribution :=
  match file.newContent with
  | none => .error ("No content provided for " ++ file.filename)
  | some nc =>
    let translated : Except String (List String) :=
      match file.targetContent with
      | some tc =>
        match processSectionBased lookup (file.oldContent.getD []) nc tc with
        | .ok t => .ok t
        | .error e => .error e.message
      | none =>
        match tf nc with
        | some t => .ok t
        | none => .error ("Full translation failed for " ++ file.filename)
    match translated with
    | .error e => .error e
    | .ok t =>
      if validateMyST t then
        .ok { translatedFiles := [⟨file.filename, t, none⟩],
              processedFiles := [file.filename],
              filesToDelete :=
                match file.oldFileSha, file.previousFilename with
                | some sha, some prev => [(prev, sha)]
                | _, _ => [] }
      else .error ("Validation failed for " ++ file.filename)

/-- Embedded from sync-orchestrator.ts processTocFile: TOC files are
copied directly without translation. -/
def processTocFile (file : FileToSync) : Except String Contribution :=
  match file.newContent with
  | none => .error ("No content provided for " ++ file.filename)
  | some nc =>
    .ok { translatedFiles := [⟨file.filename, nc, file.existingFileSha⟩],
          processedFiles := [file.filename] }

/-- Embedded from sync-orchestrator.ts processRemovedFile: a removed file
is tracked for deletion when it exists in the target repo, otherwise
skipped. -/
def processRemovedFile (file : FileToSync) : Except String Contribution :=
  match file.existingFileSha with
  | some sha =>
    .ok { filesToDelete := [(file.filename, sha)],
          processedFiles := [file.filename] }
  | none => .ok {}

/-- One iteration of the processFiles loop: dispatch on file type, catch
any error into the errors list. -/
def perFileOutcome (tf : List String → Option (List String))
    (lookup : Lookup) (file : FileToSync) : SyncProcessingResult :=
  let r := match file.type with
    | .markdown => processMarkdownFile tf lookup file
    | .renamed => processRenamedFile tf lookup file
    | .toc => processTocFile file
    | .removed => processRemovedFile file
  match r with
  | .ok c => ⟨c.translatedFiles, c.filesToDelete, c.processedFiles, []⟩
  | .error e => ⟨[], [], [], ["Error processing " ++ file.filename ++ ": " ++ e]⟩

/-- Embedded from sync-orchestrator.ts processFiles: the sequential loop
over the batch, appending each file's contribution to the shared result;
an error in one file is caught and recorded, and the loop continues. -/
def processFilesGo (tf : List String → Option (List String))
    (lookup : Lookup) (acc : SyncProcessingResult) :
    List FileToSync → SyncProcessingResult
  | [] => acc
  | f :: rest =>
    let o := perFileOutcome tf lookup f
    processFilesGo tf lookup
      ⟨acc.translatedFiles ++ o.translatedFiles,
       acc.filesToDelete ++ o.filesToDelete,
       acc.processedFiles ++ o.processedFiles,
       acc.errors ++ o.errors⟩ rest

/-- Embedded from sync-orchestrator.ts: SyncOrchestrator.processFiles. -/
def processFiles (tf : List String → Option (List String))
    (lookup : Lookup) (files : List FileToSync) : SyncProcessingResult :=
  processFilesGo tf lookup ⟨[], [], [], []⟩ files

/-- Concatenation of batch results. -/
def appendResult (a b : SyncProcessingResult) : SyncProcessingResult :=
  ⟨a.translatedFiles ++ b.translatedFiles,
   a.filesToDelete ++ b.filesToDelete,
   a.processedFiles ++ b.processedFiles,
   a.errors ++ b.errors⟩

theorem processFilesGo_eq (tf : List String → Option (List String))
    (lookup : Lookup) : ∀ (files : List FileToSync) (acc : SyncProcessingResult),
    processFilesGo tf lookup acc files
      = appendResult acc (processFiles tf lookup files) := by
  intro files
  induction files with
  | nil =>
    intro acc
    simp [processFilesGo, processFiles, appendResult]
  | cons f rest ih =>
    intro acc
    rw [processFilesGo, ih]
    rw [show processFiles tf lookup (f :: rest)
      = processFilesGo tf lookup ⟨[], [], [], []⟩ (f :: rest) from rfl]
    rw [processFilesGo, ih]
    simp [appendResult]

/-- The batch loop is exactly the concatenation of the independent
per-file outcomes: one attempt per file, in order. -/
theorem processFiles_cons (tf : List String → Option (List String))
    (lookup : Lookup) (f : FileToSync) (rest : List FileToSync) :
    processFiles tf lookup (f :: rest)
      = appendResult (perFileOutcome tf lookup f) (processFiles tf lookup rest) := by
  rw [processFiles, processFilesGo, processFilesGo_eq]
  simp [appendResult]

theorem processFiles_append (tf : List String → Option (List String))
    (lookup : Lookup) : ∀ (a b : List FileToSync),
    processFiles tf lookup (a ++ b)
      = appendResult (processFiles tf lookup a) (processFiles tf lookup b) := by
  intro a
  induction a with
  | nil =>
    intro b
    rw [List.nil_append,
      show processFiles tf lookup [] = ⟨[], [], [], []⟩ from rfl]
    simp [appendResult]
  | cons f rest ih =>
    intro b
    rw [List.cons_append, processFiles_cons, ih, processFiles_cons]
    simp [appendResult]

/-- Embedded from pr-creator.ts createTranslationPR: the commit plan of
the created pull request — one commit per translated file, one deletion
per tracked removal. -/
def prCommitPlan (translatedFiles : List TranslatedFile)
    (filesToDelete : List (String × String)) : List String :=
  translatedFiles.map (·.path) ++ filesToDelete.map (·.1)

theorem assignIds_ne_nil (used : List String) (s : Sec) (rest : List Sec) :
    assignIds used (s :: rest) ≠ [] := by
  cases s with
  | mk hd lvl i c subs =>
    rw [assignIds]
    simp

/-- The parser always returns at least one section. -/
theorem parseSections_ne_nil (ls : List String) : parseSections ls ≠ [] := by
  show (let p := bodyAndBlocks .outside ls;
    let preSecs : List Sec :=
      if p.2.isEmpty = true ∨ p.1 ≠ [] then [.mk none 1 "" p.1 []] else [];
    assignIds [] (preSecs ++ nest p.2)) ≠ []
  simp only []
  by_cases h : (bodyAndBlocks .outside ls).2.isEmpty = true
      ∨ (bodyAndBlocks .outside ls).1 ≠ []
  · rw [if_pos h]
    simp only [List.singleton_append]
    exact assignIds_ne_nil _ _ _
  · rw [if_neg h]
    push_neg at h
    obtain ⟨h2, h1⟩ := h
    cases hp : (bodyAndBlocks .outside ls).2 with
    | nil => rw [hp] at h2; simp at h2
    | cons b rest =>
      rw [List.nil_append]
      show assignIds [] (nestIns b (nest rest)) ≠ []
      unfold nestIns
      exact assignIds_ne_nil _ _ _

/-- C1, as stated, is false: reconstructing an arbitrary target document
against the self-diff of an unrelated source succeeds but does not return
the target byte for byte — here a one-section source against a
two-section target drops the second target section. -/
theorem claim_C1_counterexample :
    reconstruct ["## B", "t", "## C", "u"]
      (detectSectionChanges (parseSections ["## A", "s"])
        (parseSections ["## A", "s"]))
      (fun _ => none) ⟨[]⟩
      = .ok (["## B", "t"], ⟨[]⟩)
    ∧ (["## B", "t"] : List String) ≠ ["## B", "t", "## C", "u"] := by
  constructor
  · simp +decide [parseSections, bodyAndBlocks, nest, nestIns, assignIds, fresh,
      slug, slugChars, headingTextOf, leadingHashes, isBoundary, headingLevel,
      stepRegion, fenceMarker, isMathDelim, jsStartsWith, jsEndsWith,
      serializeSecs, serializeSec, detectChangesGo, detectSectionChanges,
      extractFirst, walkGo, resolveTarget, reconstruct, updateHeadingMap,
      removedIds, changedAddedIds, treeIds, hasMissing, visitIds,
      resolvedHeading, HeadingMap.findEntry, HeadingMap.ids,
      HeadingMap.setEntry, HeadingMap.removeEntry, extractHeadingMap,
      parseMapEntry, validateMyST, processSectionBased, processMarkdownFile,
      processRenamedFile, processTocFile, processRemovedFile, perFileOutcome,
      processFilesGo, processFiles, appendResult, prCommitPlan,
      classifyChangedFiles, headedCount, contentCount, headingsOfSecs,
      CR.isUnchanged, Sec.id, Sec.heading, Sec.level, Sec.content, Sec.subs,
      Except.map, Option.toList, joinHB, regionsFrom, boundaryLinesFrom,
      boundaryLines, unchangedRecords, matchedIds, addedIdsCR]
  · decide

/-- C1 (amended): reconstruct(T, detectChanges(S,S), lookup, M) — in which
no id is classified changed, added or removed — succeeds and returns T
byte for byte, with the heading map unchanged, provided M is empty (so
resolution is positional) and S and T parse to equally many top-level
sections; without that alignment the output can drop or reorder target
sections (see the counterexample). -/
theorem claim_C1 (S T : List String) (lookup : Lookup)
    (h : (parseSections S).length = (parseSections T).length) :
    reconstruct T (detectSectionChanges (parseSections S) (parseSections S))
      lookup ⟨[]⟩ = .ok (T, ⟨[]⟩) :=
  reconstruct_self_diff S T lookup h

theorem claim_C1_witness :
    reconstruct ["## A", "x"]
      (detectSectionChanges (parseSections ["## A", "x"])
        (parseSections ["## A", "x"]))
      (fun _ => none) ⟨[]⟩ = .ok (["## A", "x"], ⟨[]⟩) :=
  claim_C1 ["## A", "x"] ["## A", "x"] (fun _ => none) rfl

/-- C4: a section's rendered form is exactly its own content preceded by
its heading line and followed by the serializations of its subsections in
order; each section contributes its heading exactly once to the rendered
output — the occurrence count of any line equals the number of sections
bearing it as heading plus the number of content lines equal to it, so a
heading carried by exactly one subsection and by no content line occurs
exactly once. -/
theorem claim_C4 (s : Sec) (ss : List Sec) (h : String) :
    serializeSec s = s.heading.toList ++ s.content ++ serializeSecs s.subs
    ∧ (serializeSecs ss).count h = headedCount h ss + contentCount h ss
    ∧ (headedCount h ss = 1 → contentCount h ss = 0 →
        (serializeSecs ss).count h = 1) := by
  refine ⟨?_, count_serializeSecs h ss, ?_⟩
  · cases s with
    | mk hd lvl i c subs =>
      simp [serializeSec, serializeSecs, Sec.heading, Sec.content, Sec.subs]
  · intro h1 h0
    rw [count_serializeSecs h ss, h1, h0]

theorem claim_C4_witness :
    (serializeSecs (parseSections ["## A", "x", "### B", "y"])).count "### B" = 1 := by
  have h := (claim_C4 (Sec.mk none 1 "" [] [])
    (parseSections ["## A", "x", "### B", "y"]) "### B").2.2
  apply h <;>
    simp +decide [parseSections, bodyAndBlocks, nest, nestIns, assignIds, fresh,
      slug, slugChars, headingTextOf, leadingHashes, isBoundary, headingLevel,
      stepRegion, fenceMarker, isMathDelim, jsStartsWith, jsEndsWith,
      serializeSecs, serializeSec, detectChangesGo, detectSectionChanges,
      extractFirst, walkGo, resolveTarget, reconstruct, updateHeadingMap,
      removedIds, changedAddedIds, treeIds, hasMissing, visitIds,
      resolvedHeading, HeadingMap.findEntry, HeadingMap.ids,
      HeadingMap.setEntry, HeadingMap.removeEntry, extractHeadingMap,
      parseMapEntry, validateMyST, processSectionBased, processMarkdownFile,
      processRenamedFile, processTocFile, processRemovedFile, perFileOutcome,
      processFilesGo, processFiles, appendResult, prCommitPlan,
      classifyChangedFiles, headedCount, contentCount, headingsOfSecs,
      CR.isUnchanged, Sec.id, Sec.heading, Sec.level, Sec.content, Sec.subs,
      Except.map, Option.toList, joinHB, regionsFrom, boundaryLinesFrom,
      boundaryLines, unchangedRecords, matchedIds, addedIdsCR]

/-- C6: the heading lines of the parsed tree are exactly the boundary
lines — lines opening with 2 to 6 hashes and a space that lie outside
fence and math regions; a line inside a fence or math region never
creates a boundary, and a heading line always carries 2 to 6 hashes. -/
theorem claim_C6 (ls : List String) (r : Region) (l : String) :
    headingsOfSecs (parseSections ls) = boundaryLines ls
    ∧ (r ≠ .outside → isBoundary r l = false)
    ∧ ((headingLevel l).isSome = true →
        2 ≤ leadingHashes l.data ∧ leadingHashes l.data ≤ 6) := by
  refine ⟨headingsOf_parseSections ls, ?_, ?_⟩
  · intro hr
    simp only [isBoundary, Bool.and_eq_false_imp]
    simp [hr]
  · intro hl
    rw [headingLevel] at hl
    split at hl
    · next hcond => exact ⟨hcond.1, hcond.2.1⟩
    · simp at hl

theorem claim_C6_witness :
    isBoundary (Region.fence "```") "## not a heading" = false :=
  (claim_C6 [] (Region.fence "```") "## not a heading").2.1 (by decide)

/-- C7: parse is total and loses nothing — serializing its output returns
the input unchanged and the result always holds at least one section; an
input with no boundary line (in particular a document whose remainder sits
inside an unclosed fence or math region) yields exactly one implicit
headless top-level section holding the entire text. -/
theorem claim_C7 (ls : List String) :
    serializeSecs (parseSections ls) = ls
    ∧ parseSections ls ≠ []
    ∧ (boundaryLines ls = [] → parseSections ls = [Sec.mk none 1 "" ls []]) :=
  ⟨serializeSecs_parseSections ls, parseSections_ne_nil ls,
    parseSections_no_boundary ls⟩

theorem claim_C7_witness :
    parseSections ["```", "# A", "## B inside unclosed fence"]
      = [Sec.mk none 1 "" ["```", "# A", "## B inside unclosed fence"] []] :=
  (claim_C7 _).2.2 (by decide)


/-- C5, as stated, fails: the update sets entries only for changed or
added ids, so an unchanged id absent from the incoming map stays absent —
here the id a is reachable in the new source tree but the updated map is
empty. -/
theorem claim_C5_counterexample :
    (updateHeadingMap ⟨[]⟩
      (detectSectionChanges (parseSections ["## A", "x"])
        (parseSections ["## A", "x"]))
      (fun _ => "")).ids = []
    ∧ "a" ∈ treeIds (parseSections ["## A", "x"]) := by
  constructor
  · simp +decide [parseSections, bodyAndBlocks, nest, nestIns, assignIds, fresh,
      slug, slugChars, headingTextOf, leadingHashes, isBoundary, headingLevel,
      stepRegion, fenceMarker, isMathDelim, jsStartsWith, jsEndsWith,
      serializeSecs, serializeSec, detectChangesGo, detectSectionChanges,
      extractFirst, walkGo, resolveTarget, reconstruct, updateHeadingMap,
      removedIds, changedAddedIds, treeIds, hasMissing, visitIds,
      resolvedHeading, HeadingMap.findEntry, HeadingMap.ids,
      HeadingMap.setEntry, HeadingMap.removeEntry, extractHeadingMap,
      parseMapEntry, validateMyST, processSectionBased, processMarkdownFile,
      processRenamedFile, processTocFile, processRemovedFile, perFileOutcome,
      processFilesGo, processFiles, appendResult, prCommitPlan,
      classifyChangedFiles, headedCount, contentCount, headingsOfSecs,
      CR.isUnchanged, Sec.id, Sec.heading, Sec.level, Sec.content, Sec.subs,
      Except.map, Option.toList, joinHB, regionsFrom, boundaryLinesFrom,
      boundaryLines, unchangedRecords, matchedIds, addedIdsCR]
  · simp +decide [parseSections, bodyAndBlocks, nest, nestIns, assignIds, fresh,
      slug, slugChars, headingTextOf, leadingHashes, isBoundary, headingLevel,
      stepRegion, fenceMarker, isMathDelim, jsStartsWith, jsEndsWith,
      serializeSecs, serializeSec, detectChangesGo, detectSectionChanges,
      extractFirst, walkGo, resolveTarget, reconstruct, updateHeadingMap,
      removedIds, changedAddedIds, treeIds, hasMissing, visitIds,
      resolvedHeading, HeadingMap.findEntry, HeadingMap.ids,
      HeadingMap.setEntry, HeadingMap.removeEntry, extractHeadingMap,
      parseMapEntry, validateMyST, processSectionBased, processMarkdownFile,
      processRenamedFile, processTocFile, processRemovedFile, perFileOutcome,
      processFilesGo, processFiles, appendResult, prCommitPlan,
      classifyChangedFiles, headedCount, contentCount, headingsOfSecs,
      CR.isUnchanged, Sec.id, Sec.heading, Sec.level, Sec.content, Sec.subs,
      Except.map, Option.toList, joinHB, regionsFrom, boundaryLinesFrom,
      boundaryLines, unchangedRecords, matchedIds, addedIdsCR]

/-- C5 (amended): after a heading-map update along the diff of the old
tree against the new tree, the map's id set equals exactly the ids
reachable in the new source tree — one entry each — provided the incoming
map's id set was exactly the old tree's reachable ids (one entry each) and
the old tree's reachable ids are duplicate-free; without that completeness
precondition an unchanged id missing from the map stays missing (see the
counterexample). -/
theorem claim_C5 (old new : List Sec) (m : HeadingMap)
    (resolved : String → String)
    (hids : ∀ i, i ∈ m.ids ↔ i ∈ treeIds old)
    (hnodupOld : (treeIds old).Nodup) (hnodupM : m.ids.Nodup) :
    (∀ i, i ∈ (updateHeadingMap m (detectSectionChanges old new) resolved).ids
        ↔ i ∈ treeIds new)
    ∧ (updateHeadingMap m (detectSectionChanges old new) resolved).ids.Nodup :=
  updateHeadingMap_complete old new m resolved hids hnodupOld hnodupM

theorem claim_C5_witness :
    ("b" ∈ (updateHeadingMap ⟨[("a", "Alt")]⟩
        (detectSectionChanges (parseSections ["## A", "x"])
          (parseSections ["## B", "y"]))
        (fun _ => "")).ids
      ↔ "b" ∈ treeIds (parseSections ["## B", "y"]))
    ∧ (updateHeadingMap ⟨[("a", "Alt")]⟩
        (detectSectionChanges (parseSections ["## A", "x"])
          (parseSections ["## B", "y"]))
        (fun _ => "")).ids.Nodup := by
  have h := claim_C5 (parseSections ["## A", "x"]) (parseSections ["## B", "y"])
    ⟨[("a", "Alt")]⟩ (fun _ => "")
    (by simp +decide [parseSections, bodyAndBlocks, nest, nestIns, assignIds, fresh,
      slug, slugChars, headingTextOf, leadingHashes, isBoundary, headingLevel,
      stepRegion, fenceMarker, isMathDelim, jsStartsWith, jsEndsWith,
      serializeSecs, serializeSec, detectChangesGo, detectSectionChanges,
      extractFirst, walkGo, resolveTarget, reconstruct, updateHeadingMap,
      removedIds, changedAddedIds, treeIds, hasMissing, visitIds,
      resolvedHeading, HeadingMap.findEntry, HeadingMap.ids,
      HeadingMap.setEntry, HeadingMap.removeEntry, extractHeadingMap,
      parseMapEntry, validateMyST, processSectionBased, processMarkdownFile,
      processRenamedFile, processTocFile, processRemovedFile, perFileOutcome,
      processFilesGo, processFiles, appendResult, prCommitPlan,
      classifyChangedFiles, headedCount, contentCount, headingsOfSecs,
      CR.isUnchanged, Sec.id, Sec.heading, Sec.level, Sec.content, Sec.subs,
      Except.map, Option.toList, joinHB, regionsFrom, boundaryLinesFrom,
      boundaryLines, unchangedRecords, matchedIds, addedIdsCR])
    (by simp +decide [parseSections, bodyAndBlocks, nest, nestIns, assignIds, fresh,
      slug, slugChars, headingTextOf, leadingHashes, isBoundary, headingLevel,
      stepRegion, fenceMarker, isMathDelim, jsStartsWith, jsEndsWith,
      serializeSecs, serializeSec, detectChangesGo, detectSectionChanges,
      extractFirst, walkGo, resolveTarget, reconstruct, updateHeadingMap,
      removedIds, changedAddedIds, treeIds, hasMissing, visitIds,
      resolvedHeading, HeadingMap.findEntry, HeadingMap.ids,
      HeadingMap.setEntry, HeadingMap.removeEntry, extractHeadingMap,
      parseMapEntry, validateMyST, processSectionBased, processMarkdownFile,
      processRenamedFile, processTocFile, processRemovedFile, perFileOutcome,
      processFilesGo, processFiles, appendResult, prCommitPlan,
      classifyChangedFiles, headedCount, contentCount, headingsOfSecs,
      CR.isUnchanged, Sec.id, Sec.heading, Sec.level, Sec.content, Sec.subs,
      Except.map, Option.toList, joinHB, regionsFrom, boundaryLinesFrom,
      boundaryLines, unchangedRecords, matchedIds, addedIdsCR])
    (by simp +decide [parseSections, bodyAndBlocks, nest, nestIns, assignIds, fresh,
      slug, slugChars, headingTextOf, leadingHashes, isBoundary, headingLevel,
      stepRegion, fenceMarker, isMathDelim, jsStartsWith, jsEndsWith,
      serializeSecs, serializeSec, detectChangesGo, detectSectionChanges,
      extractFirst, walkGo, resolveTarget, reconstruct, updateHeadingMap,
      removedIds, changedAddedIds, treeIds, hasMissing, visitIds,
      resolvedHeading, HeadingMap.findEntry, HeadingMap.ids,
      HeadingMap.setEntry, HeadingMap.removeEntry, extractHeadingMap,
      parseMapEntry, validateMyST, processSectionBased, processMarkdownFile,
      processRenamedFile, processTocFile, processRemovedFile, perFileOutcome,
      processFilesGo, processFiles, appendResult, prCommitPlan,
      classifyChangedFiles, headedCount, contentCount, headingsOfSecs,
      CR.isUnchanged, Sec.id, Sec.heading, Sec.level, Sec.content, Sec.subs,
      Except.map, Option.toList, joinHB, regionsFrom, boundaryLinesFrom,
      boundaryLines, unchangedRecords, matchedIds, addedIdsCR])
  exact ⟨h.1 "b", h.2⟩

/-- C2: when the change tree of a document contains a changed or added id
for which the lookup has no translated text, processing that document
fails atomically — it contributes exactly one error and no translated
file, no deletion and no processed entry — and the batch result is the
concatenation of the untouched sibling results around that single-error
contribution. -/
theorem claim_C2 (tf : List String → Option (List String)) (lookup : Lookup)
    (f : FileToSync) (nc : List String) (pre post : List FileToSync)
    (htype : f.type = .markdown) (hnew : f.isNewFile = false)
    (hnc : f.newContent = some nc)
    (hmiss : hasMissing lookup
      (detectSectionChanges (parseSections (f.oldContent.getD []))
        (parseSections nc)) = true) :
    (∃ msg, perFileOutcome tf lookup f = ⟨[], [], [], [msg]⟩)
    ∧ processFiles tf lookup (pre ++ f :: post)
        = appendResult (processFiles tf lookup pre)
            (appendResult (perFileOutcome tf lookup f)
              (processFiles tf lookup post)) := by
  constructor
  · obtain ⟨e, he⟩ := walkGo_error_of_hasMissing lookup
      (extractHeadingMap (f.targetContent.getD []))
      (detectSectionChanges (parseSections (f.oldContent.getD []))
        (parseSections nc))
      (parseSections (f.targetContent.getD [])) 0 hmiss
    have hrec : processSectionBased lookup (f.oldContent.getD []) nc
        (f.targetContent.getD []) = .error e := by
      unfold processSectionBased reconstruct
      rw [he]
      rfl
    refine ⟨"Error processing " ++ f.filename ++ ": " ++ e.message, ?_⟩
    simp only [perFileOutcome, htype]
    simp only [processMarkdownFile, hnc, hnew]
    rw [hrec]
    rfl
  · rw [processFiles_append, processFiles_cons]

/-- A concrete markdown file whose only section changed, used with an
always-absent lookup. -/
def exampleMissingDoc : FileToSync :=
  { filename := "doc.md"
    type := FileType.markdown
    newContent := some ["## A", "new"]
    oldContent := some ["## A", "old"]
    targetContent := some ["## T", "t"]
    isNewFile := false }

theorem claim_C2_witness :
    processFiles (fun _ => none) (fun _ => none)
      ([] ++ exampleMissingDoc :: [])
      = appendResult (processFiles (fun _ => none) (fun _ => none) [])
          (appendResult
            (perFileOutcome (fun _ => none) (fun _ => none) exampleMissingDoc)
            (processFiles (fun _ => none) (fun _ => none) [])) :=
  (claim_C2 (fun _ => none) (fun _ => none) _ ["## A", "new"] [] []
    rfl rfl rfl
    (by simp +decide [parseSections, bodyAndBlocks, nest, nestIns, assignIds, fresh,
      slug, slugChars, headingTextOf, leadingHashes, isBoundary, headingLevel,
      stepRegion, fenceMarker, isMathDelim, jsStartsWith, jsEndsWith,
      serializeSecs, serializeSec, detectChangesGo, detectSectionChanges,
      extractFirst, walkGo, resolveTarget, reconstruct, updateHeadingMap,
      removedIds, changedAddedIds, treeIds, hasMissing, visitIds,
      resolvedHeading, HeadingMap.findEntry, HeadingMap.ids,
      HeadingMap.setEntry, HeadingMap.removeEntry, extractHeadingMap,
      parseMapEntry, validateMyST, processSectionBased, processMarkdownFile,
      processRenamedFile, processTocFile, processRemovedFile, perFileOutcome,
      processFilesGo, processFiles, appendResult, prCommitPlan,
      classifyChangedFiles, headedCount, contentCount, headingsOfSecs,
      CR.isUnchanged, Sec.id, Sec.heading, Sec.level, Sec.content, Sec.subs,
      Except.map, Option.toList, joinHB, regionsFrom, boundaryLinesFrom,
      boundaryLines, unchangedRecords, matchedIds, addedIdsCR])).2

/-- C3: batch processing is exactly the concatenation of the independent
per-file outcomes, so an error in one file is recorded and never stops or
affects the others; every translated file a successful document produces
is included in the created pull request's commit plan even when sibling
documents fail. -/
theorem claim_C3 (tf : List String → Option (List String)) (lookup : Lookup)
    (pre post : List FileToSync) (f : FileToSync) :
    processFiles tf lookup (pre ++ f :: post)
      = appendResult (processFiles tf lookup pre)
          (appendResult (perFileOutcome tf lookup f)
            (processFiles tf lookup post))
    ∧ (∀ tfl, tfl ∈ (perFileOutcome tf lookup f).translatedFiles →
        tfl.path ∈ prCommitPlan
          (processFiles tf lookup (pre ++ f :: post)).translatedFiles
          (processFiles tf lookup (pre ++ f :: post)).filesToDelete) := by
  have heq : processFiles tf lookup (pre ++ f :: post)
      = appendResult (processFiles tf lookup pre)
          (appendResult (perFileOutcome tf lookup f)
            (processFiles tf lookup post)) := by
    rw [processFiles_append, processFiles_cons]
  refine ⟨heq, ?_⟩
  intro tfl htfl
  rw [heq]
  simp only [prCommitPlan, appendResult, List.map_append, List.mem_append]
  have hmem : tfl.path ∈ List.map (fun x => x.path)
      (perFileOutcome tf lookup f).translatedFiles :=
    List.mem_map_of_mem _ htfl
  tauto

/-- A markdown file with no content, which fails during processing. -/
def exampleBadFile : FileToSync :=
  { filename := "bad.md"
    type := FileType.markdown
    isNewFile := true }

/-- A TOC file that succeeds by being copied directly. -/
def exampleTocFile : FileToSync :=
  { filename := "lectures/_toc.yml"
    type := FileType.toc
    newContent := some ["format: jb-book"]
    existingFileSha := some "sha1"
    isNewFile := false }

theorem claim_C3_witness :
    ("lectures/_toc.yml" : String) ∈ prCommitPlan
      (processFiles (fun _ => none) (fun _ => none)
        ([exampleBadFile] ++ exampleTocFile :: [])).translatedFiles
      (processFiles (fun _ => none) (fun _ => none)
        ([exampleBadFile] ++ exampleTocFile :: [])).filesToDelete :=
  (claim_C3 (fun _ => none) (fun _ => none) _ _ _).2
    ⟨"lectures/_toc.yml", ["format: jb-book"], some "sha1"⟩ (by decide)

/-- C8: the core performs no retries — the batch loop attempts each
document exactly once, in order; the reconstruction walk queries the
lookup in one pass, its query trace being a prefix of the
one-query-per-record visit sequence that it completes exactly when the
walk succeeds, so after a failure the lookup is never re-invoked. -/
theorem claim_C8 (tf : List String → Option (List String)) (lookup : Lookup)
    (hm : HeadingMap) (files : List FileToSync) (records : List CR)
    (tsecs : List Sec) (pos : Nat) :
    processFiles tf lookup files
      = (files.map (perFileOutcome tf lookup)).foldr appendResult
          ⟨[], [], [], []⟩
    ∧ (walkGo lookup hm records tsecs pos).2 <+: visitIds records
    ∧ (∀ out, (walkGo lookup hm records tsecs pos).1 = .ok out →
        (walkGo lookup hm records tsecs pos).2 = visitIds records) := by
  refine ⟨?_, (walkGo_trace lookup hm records tsecs pos).1,
    (walkGo_trace lookup hm records tsecs pos).2⟩
  induction files with
  | nil => rfl
  | cons f rest ih =>
    rw [List.map_cons, List.foldr_cons, ← ih, processFiles_cons]

theorem claim_C8_witness :
    (walkGo (fun _ => some ["## X"]) ⟨[]⟩ [CR.changed "a" []] [] 0).2
      = visitIds [CR.changed "a" []] :=
  (claim_C8 (fun _ => none) (fun _ => some ["## X"]) ⟨[]⟩ []
    [CR.changed "a" []] [] 0).2.2 ["## X"]
    (by simp +decide [parseSections, bodyAndBlocks, nest, nestIns, assignIds, fresh,
      slug, slugChars, headingTextOf, leadingHashes, isBoundary, headingLevel,
      stepRegion, fenceMarker, isMathDelim, jsStartsWith, jsEndsWith,
      serializeSecs, serializeSec, detectChangesGo, detectSectionChanges,
      extractFirst, walkGo, resolveTarget, reconstruct, updateHeadingMap,
      removedIds, changedAddedIds, treeIds, hasMissing, visitIds,
      resolvedHeading, HeadingMap.findEntry, HeadingMap.ids,
      HeadingMap.setEntry, HeadingMap.removeEntry, extractHeadingMap,
      parseMapEntry, validateMyST, processSectionBased, processMarkdownFile,
      processRenamedFile, processTocFile, processRemovedFile, perFileOutcome,
      processFilesGo, processFiles, appendResult, prCommitPlan,
      classifyChangedFiles, headedCount, contentCount, headingsOfSecs,
      CR.isUnchanged, Sec.id, Sec.heading, Sec.level, Sec.content, Sec.subs,
      Except.map, Option.toList, joinHB, regionsFrom, boundaryLinesFrom,
      boundaryLines, unchangedRecords, matchedIds, addedIdsCR])


/-- C9: classifyChangedFiles places each PR file in at most one of its
five categories; a file lands in some category exactly when its filename
starts with the docs-folder prefix and ends with .md, or ends with
_toc.yml and has a status other than renamed — in particular a renamed
_toc.yml file is placed in no category at all. -/
theorem claim_C9 (files : List PRFile) (d : String) (f : PRFile)
    (hf : f ∈ files) :
    ((if f ∈ (classifyChangedFiles files d).changedMarkdownFiles then 1 else 0)
      + (if f ∈ (classifyChangedFiles files d).renamedMarkdownFiles then 1 else 0)
      + (if f ∈ (classifyChangedFiles files d).changedTocFiles then 1 else 0)
      + (if f ∈ (classifyChangedFiles files d).removedMarkdownFiles then 1 else 0)
      + (if f ∈ (classifyChangedFiles files d).removedTocFiles then 1 else 0)
      : Nat)
      = (if jsStartsWith f.filename d = true
            ∧ (jsEndsWith f.filename ".md" = true
              ∨ (jsEndsWith f.filename "_toc.yml" = true ∧ f.status ≠ "renamed"))
          then 1 else 0) := by
  simp only [classifyChangedFiles, List.mem_filter, hf, true_and]
  by_cases hp : jsStartsWith f.filename d = true
  case neg => simp [hp]
  case pos =>
    by_cases hmd : jsEndsWith f.filename ".md" = true
    · have htoc : jsEndsWith f.filename "_toc.yml" = false := by
        cases hx : jsEndsWith f.filename "_toc.yml"
        · rfl
        · exact absurd ⟨hmd, hx⟩ (not_md_and_toc f.filename)
      by_cases hs1 : f.status = "removed"
      · have hs2 : f.status ≠ "renamed" := by rw [hs1]; decide
        simp [hp, hmd, htoc, hs1, hs2]
      · by_cases hs2 : f.status = "renamed"
        · simp [hp, hmd, htoc, hs1, hs2]
        · simp [hp, hmd, htoc, hs1, hs2]
    · by_cases htoc : jsEndsWith f.filename "_toc.yml" = true
      · by_cases hs1 : f.status = "removed"
        · have hs2 : f.status ≠ "renamed" := by rw [hs1]; decide
          simp [hp, hmd, htoc, hs1, hs2]
        · by_cases hs2 : f.status = "renamed"
          · simp [hp, hmd, htoc, hs1, hs2]
          · simp [hp, hmd, htoc, hs1, hs2]
      · simp [hp, hmd, htoc]

/-- A renamed TOC file, which classifyChangedFiles silently drops. -/
def exampleRenamedToc : PRFile :=
  { filename := "lectures/_toc.yml"
    status := "renamed"
    previous_filename := some "lectures/_old_toc.yml" }

theorem claim_C9_witness :
    ((if exampleRenamedToc
          ∈ (classifyChangedFiles [exampleRenamedToc] "lectures/").changedMarkdownFiles
        then 1 else 0)
      + (if exampleRenamedToc
          ∈ (classifyChangedFiles [exampleRenamedToc] "lectures/").renamedMarkdownFiles
        then 1 else 0)
      + (if exampleRenamedToc
          ∈ (classifyChangedFiles [exampleRenamedToc] "lectures/").changedTocFiles
        then 1 else 0)
      + (if exampleRenamedToc
          ∈ (classifyChangedFiles [exampleRenamedToc] "lectures/").removedMarkdownFiles
        then 1 else 0)
      + (if exampleRenamedToc
          ∈ (classifyChangedFiles [exampleRenamedToc] "lectures/").removedTocFiles
        then 1 else 0)
      : Nat)
      = (if jsStartsWith exampleRenamedToc.filename "lectures/" = true
            ∧ (jsEndsWith exampleRenamedToc.filename ".md" = true
              ∨ (jsEndsWith exampleRenamedToc.filename "_toc.yml" = true
                ∧ exampleRenamedToc.status ≠ "renamed"))
          then 1 else 0) :=
  claim_C9 [exampleRenamedToc] "lectures/" exampleRenamedToc (by decide)

/-- C10: every renamed markdown file that processes successfully stores
its translated content at the new path with no existing-file sha and is
marked processed once; the old path is appended to the deletion list
exactly once when both the old target file's sha and the previous
filename are present, and never otherwise; when no prior target
translation exists the content is the full-document translation of the
new content. -/
theorem claim_C10 (tf : List String → Option (List String)) (lookup : Lookup)
    (f : FileToSync) (c : Contribution)
    (hok : processRenamedFile tf lookup f = .ok c) :
    (∃ t, c.translatedFiles = [⟨f.filename, t, none⟩]
        ∧ c.processedFiles = [f.filename]
        ∧ (f.targetContent = none → ∀ nc2, f.newContent = some nc2 →
            tf nc2 = some t))
    ∧ c.filesToDelete = (match f.oldFileSha, f.previousFilename with
        | some sha, some prev => [(prev, sha)]
        | _, _ => []) := by
  rw [processRenamedFile] at hok
  split at hok
  next => exact absurd hok (by simp)
  next nc hnc =>
    split at hok
    next tc htc =>
      split at hok
      next t hsb =>
        split at hok
        next sha prev h1 h2 =>
          simp only [] at hok
          split at hok
          next hval =>
            simp only [Except.ok.injEq] at hok
            subst hok
            refine ⟨⟨t, rfl, rfl, ?_⟩, ?_⟩
            · intro htarget nc2 hnc2
              rw [htarget] at htc
              exact absurd htc (by simp)
            · simp only [h1, h2]
          next hval => exact absurd hok (by simp)
        next hcon =>
          simp only [] at hok
          split at hok
          next hval =>
            simp only [Except.ok.injEq] at hok
            subst hok
            refine ⟨⟨t, rfl, rfl, ?_⟩, ?_⟩
            · intro htarget nc2 hnc2
              rw [htarget] at htc
              exact absurd htc (by simp)
            · cases ho : f.oldFileSha with
              | none =>
                cases hpv : f.previousFilename <;> simp [ho, hpv]
              | some sha =>
                cases hpv : f.previousFilename with
                | none => simp [ho, hpv]
                | some prev => exact (hcon sha prev ho hpv).elim
          next hval => exact absurd hok (by simp)
      next e hsb => exact absurd hok (by simp)
    next htc =>
      split at hok
      next t htf =>
        split at hok
        next sha prev h1 h2 =>
          simp only [] at hok
          split at hok
          next hval =>
            simp only [Except.ok.injEq] at hok
            subst hok
            refine ⟨⟨t, rfl, rfl, ?_⟩, ?_⟩
            · intro htarget nc2 hnc2
              rw [hnc] at hnc2
              simp only [Option.some.injEq] at hnc2
              subst hnc2
              exact htf
            · simp only [h1, h2]
          next hval => exact absurd hok (by simp)
        next hcon =>
          simp only [] at hok
          split at hok
          next hval =>
            simp only [Except.ok.injEq] at hok
            subst hok
            refine ⟨⟨t, rfl, rfl, ?_⟩, ?_⟩
            · intro htarget nc2 hnc2
              rw [hnc] at hnc2
              simp only [Option.some.injEq] at hnc2
              subst hnc2
              exact htf
            · cases ho : f.oldFileSha with
              | none =>
                cases hpv : f.previousFilename <;> simp [ho, hpv]
              | some sha =>
                cases hpv : f.previousFilename with
                | none => simp [ho, hpv]
                | some prev => exact (hcon sha prev ho hpv).elim
          next hval => exact absurd hok (by simp)
      next htf => exact absurd hok (by simp)

/-- A renamed file with no prior translation in the target repo. -/
def exampleRenamedFile : FileToSync :=
  { filename := "lectures/new-name.md"
    type := FileType.renamed
    newContent := some ["## A", "x"]
    previousFilename := some "lectures/old-name.md"
    oldFileSha := some "oldsha1"
    isNewFile := true }

theorem claim_C10_witness :
    ({ translatedFiles := [⟨"lectures/new-name.md", ["ok line"], none⟩]
       filesToDelete := [("lectures/old-name.md", "oldsha1")]
       processedFiles := ["lectures/new-name.md"] } : Contribution).filesToDelete
      = (match exampleRenamedFile.oldFileSha,
            exampleRenamedFile.previousFilename with
        | some sha, some prev => [(prev, sha)]
        | _, _ => []) :=
  (claim_C10 (fun _ => some ["ok line"]) (fun _ => none) exampleRenamedFile
    _ (by rfl)).2

end ActionTranslation
